import Mathlib

/-!
# Verification of the makepad code-editor core

A shallow embedding of the headless editing core found under
`src/code_editor/src/` (text buffer and position/length arithmetic,
change inversion, undo/redo history, multi-region selections, word
wrap, cursor motion), together with proofs and refutations of the
specification claims about it.

Lines of the buffer are modelled as lists of characters; a byte offset
of the source indexes this list.  All definitions are translated from
the Rust source; the few helpers that live outside the embedded tree
(`str.rs`: whitespace segmentation, display widths, graphemes) are
modelled from the specification and say so in their doc comments.
-/

namespace Makepad

/-- One line of the buffer (`String` in the source); byte offsets index it. -/
abbrev BufLine := List Char

/-- `text.rs`: `Position { line_index, byte_index }`. -/
structure Position where
  line_index : Nat
  byte_index : Nat
deriving DecidableEq

/-- `text.rs`: `Length { line_count, byte_count }`. -/
structure Length where
  line_count : Nat
  byte_count : Nat
deriving DecidableEq

/-- `text.rs`: `Text { lines: Vec<String> }`. -/
structure Text where
  lines : List BufLine
deriving DecidableEq

/-- Lexicographic strict order on positions (the derived `Ord` on
`Position` in the source compares `line_index`, then `byte_index`). -/
def Position.ltP (p q : Position) : Prop :=
  p.line_index < q.line_index ∨
    (p.line_index = q.line_index ∧ p.byte_index < q.byte_index)

/-- Lexicographic order on positions. -/
def Position.leP (p q : Position) : Prop :=
  p.line_index < q.line_index ∨
    (p.line_index = q.line_index ∧ p.byte_index ≤ q.byte_index)

instance : LinearOrder Position where
  le := Position.leP
  lt := Position.ltP
  le_refl p := Or.inr ⟨rfl, Nat.le_refl _⟩
  le_trans := by
    intro a b c hab hbc
    obtain ⟨al, ab2⟩ := a
    obtain ⟨bl, bb⟩ := b
    obtain ⟨cl, cb⟩ := c
    have h1 : al < bl ∨ (al = bl ∧ ab2 ≤ bb) := hab
    have h2 : bl < cl ∨ (bl = cl ∧ bb ≤ cb) := hbc
    show al < cl ∨ (al = cl ∧ ab2 ≤ cb)
    omega
  lt_iff_le_not_le := by
    intro a b
    obtain ⟨al, ab2⟩ := a
    obtain ⟨bl, bb⟩ := b
    show (al < bl ∨ (al = bl ∧ ab2 < bb)) ↔
      (al < bl ∨ (al = bl ∧ ab2 ≤ bb)) ∧ ¬ (bl < al ∨ (bl = al ∧ bb ≤ ab2))
    constructor <;> intro h <;> omega
  le_antisymm := by
    intro a b hab hba
    obtain ⟨al, ab2⟩ := a
    obtain ⟨bl, bb⟩ := b
    have h1 : al < bl ∨ (al = bl ∧ ab2 ≤ bb) := hab
    have h2 : bl < al ∨ (bl = al ∧ bb ≤ ab2) := hba
    simp only [Position.mk.injEq]
    omega
  le_total := by
    intro a b
    obtain ⟨al, ab2⟩ := a
    obtain ⟨bl, bb⟩ := b
    show (al < bl ∨ (al = bl ∧ ab2 ≤ bb)) ∨ (bl < al ∨ (bl = al ∧ bb ≤ ab2))
    omega
  decidableLE p q :=
    inferInstanceAs (Decidable (p.line_index < q.line_index ∨
      (p.line_index = q.line_index ∧ p.byte_index ≤ q.byte_index)))
  decidableLT p q :=
    inferInstanceAs (Decidable (p.line_index < q.line_index ∨
      (p.line_index = q.line_index ∧ p.byte_index < q.byte_index)))

/-- `Ord::min` on positions: `self` when `self <= other`. -/
def Position.minP (p q : Position) : Position := if p ≤ q then p else q

/-- `Ord::max` on positions: `other` when `self <= other`. -/
def Position.maxP (p q : Position) : Position := if p ≤ q then q else p

/-- `text.rs`: `impl Add<Length> for Position`. -/
def Position.addL (p : Position) (l : Length) : Position :=
  if l.line_count = 0 then
    ⟨p.line_index, p.byte_index + l.byte_count⟩
  else
    ⟨p.line_index + l.line_count, l.byte_count⟩

/-- `text.rs`: `impl Sub for Position` (produces a `Length`). -/
def Position.subP (p q : Position) : Length :=
  if p.line_index = q.line_index then
    ⟨0, p.byte_index - q.byte_index⟩
  else
    ⟨p.line_index - q.line_index, p.byte_index⟩

/-- `text.rs`: `Length::empty()` (the `Default`). -/
def Length.empty : Length := ⟨0, 0⟩

/-- `text.rs`: `impl Add for Length`. -/
def Length.addL (a b : Length) : Length :=
  if b.line_count = 0 then
    ⟨a.line_count, a.byte_count + b.byte_count⟩
  else
    ⟨a.line_count + b.line_count, b.byte_count⟩

/-- The line of `t` at index `i` (`self.lines[i]`; out of range is a
panic in the source, defaulted to the empty line here). -/
def lineAt (t : Text) (i : Nat) : BufLine := t.lines.getD i []

/-- `text.rs`: `Text::length()`. -/
def Text.lengthT (t : Text) : Length :=
  ⟨t.lines.length - 1, (t.lines.getLastD []).length⟩

/-- `text.rs`: `Text::slice(start, length)`. -/
def Text.slice (t : Text) (start : Position) (len : Length) : Text :=
  let e := start.addL len
  if len.line_count = 0 then
    ⟨[((lineAt t start.line_index).drop start.byte_index).take len.byte_count]⟩
  else
    let front := (lineAt t start.line_index).drop start.byte_index
    let middle := (t.lines.drop (start.line_index + 1)).take
      (e.line_index - (start.line_index + 1))
    let back := (lineAt t e.line_index).take e.byte_index
    ⟨front :: middle ++ [back]⟩

/-- Append `suf` to the last element of `xs`
(`lines.last_mut().unwrap().push_str(after)`). -/
def appendToLast (xs : List BufLine) (suf : BufLine) : List BufLine :=
  match xs with
  | [] => []
  | [a] => [a ++ suf]
  | a :: b :: rest => a :: appendToLast (b :: rest) suf

/-- `text.rs`: `Text::insert` (private helper of `apply_change`). -/
def Text.insertT (t : Text) (p : Position) (x : Text) : Text :=
  if x.lengthT.line_count = 0 then
    ⟨t.lines.take p.line_index ++
      [(lineAt t p.line_index).take p.byte_index ++ x.lines.headD [] ++
        (lineAt t p.line_index).drop p.byte_index] ++
      t.lines.drop (p.line_index + 1)⟩
  else
    let before := (lineAt t p.line_index).take p.byte_index
    let after := (lineAt t p.line_index).drop p.byte_index
    let xs := appendToLast (x.lines.modifyHead (before ++ ·)) after
    ⟨t.lines.take p.line_index ++ xs ++ t.lines.drop (p.line_index + 1)⟩

/-- `text.rs`: `Text::delete` (private helper of `apply_change`). -/
def Text.deleteT (t : Text) (start : Position) (len : Length) : Text :=
  let e := start.addL len
  if len.line_count = 0 then
    ⟨t.lines.take start.line_index ++
      [(lineAt t start.line_index).take start.byte_index ++
        (lineAt t start.line_index).drop e.byte_index] ++
      t.lines.drop (start.line_index + 1)⟩
  else
    let before := (lineAt t start.line_index).take start.byte_index
    let after := (lineAt t e.line_index).drop e.byte_index
    ⟨t.lines.take start.line_index ++ [before ++ after] ++
      t.lines.drop (e.line_index + 1)⟩

/-- `text.rs`: `Change`. -/
inductive Change where
  | insert (position : Position) (text : Text)
  | delete (start : Position) (length : Length)
deriving DecidableEq

/-- `text.rs`: `Text::apply_change`. -/
def Text.applyChange (t : Text) (c : Change) : Text :=
  match c with
  | .insert p x => t.insertT p x
  | .delete s l => t.deleteT s l

/-- `text.rs`: `Change::invert(text)` — the change that undoes `self`
against the buffer `text` as it is *before* `self` is applied. -/
def Change.invert (c : Change) (t : Text) : Change :=
  match c with
  | .insert p x => .delete p x.lengthT
  | .delete s l => .insert s (t.slice s l)

/-- `text.rs`: `Drift`. -/
inductive Drift where
  | before
  | after
deriving DecidableEq

/-- `text.rs`: `Position::apply_change(change, drift)`. -/
def Position.applyChange (p : Position) (c : Change) (drift : Drift) : Position :=
  match c with
  | .insert pos x =>
    if p < pos then p
    else if p = pos then
      match drift with
      | .before => p.addL x.lengthT
      | .after => p
    else (pos.addL x.lengthT).addL (p.subP pos)
  | .delete start len =>
    if p < start then p
    else start.addL (p.subP (Position.minP (start.addL len) p))

/-- C10, part 1: adding the difference of two ordered positions to the
smaller one gives back the larger one. -/
theorem addL_subP_cancel (p q : Position) (h : p ≤ q) : p.addL (q.subP p) = q := by
  obtain ⟨pl, pb⟩ := p
  obtain ⟨ql, qb⟩ := q
  have h' : pl < ql ∨ (pl = ql ∧ pb ≤ qb) := h
  simp only [Position.subP, Position.addL]
  split_ifs <;> (try simp_all) <;> omega

/-- C10, part 2: subtracting a position from its translate recovers the
length. -/
theorem addL_subP_self (p : Position) (l : Length) : (p.addL l).subP p = l := by
  obtain ⟨pl, pb⟩ := p
  obtain ⟨lc, bc⟩ := l
  simp only [Position.addL, Position.subP]
  split_ifs <;> simp_all

/-- C10: `Position`/`Length` arithmetic is inverse-consistent: for
positions `p ≤ q` (lexicographically), `p + (q - p) = q`, and for every
position `p` and length `l`, `(p + l) - p = l`. -/
theorem position_length_inverse_consistent :
    (∀ p q : Position, p ≤ q → p.addL (q.subP p) = q) ∧
    (∀ (p : Position) (l : Length), (p.addL l).subP p = l) :=
  ⟨addL_subP_cancel, addL_subP_self⟩

/-- Witness for C10 at concrete inputs. -/
theorem position_length_inverse_consistent_w :
    Position.addL ⟨0, 1⟩ (Position.subP ⟨2, 3⟩ ⟨0, 1⟩) = ⟨2, 3⟩ ∧
    (Position.addL ⟨1, 1⟩ ⟨2, 5⟩).subP ⟨1, 1⟩ = ⟨2, 5⟩ :=
  ⟨position_length_inverse_consistent.1 ⟨0, 1⟩ ⟨2, 3⟩ (by decide),
   position_length_inverse_consistent.2 ⟨1, 1⟩ ⟨2, 5⟩⟩

theorem Position.lt_def (p q : Position) : (p < q) =
    (p.line_index < q.line_index ∨
      (p.line_index = q.line_index ∧ p.byte_index < q.byte_index)) := rfl

theorem Position.le_def (p q : Position) : (p ≤ q) =
    (p.line_index < q.line_index ∨
      (p.line_index = q.line_index ∧ p.byte_index ≤ q.byte_index)) := rfl

/-- C3 fails as stated: under `Drift::After` a position exactly at the
insertion point is left in place, not shifted by the inserted length
(`Drift::Before` is the drift that shifts it).  Here `P = Q = (0,0)`
and the inserted text `"ab"` has length `(0,2)`. -/
theorem apply_change_after_at_insertion_point_not_shifted :
    Position.applyChange ⟨0, 0⟩ (.insert ⟨0, 0⟩ ⟨[['a', 'b']]⟩) .after = ⟨0, 0⟩ ∧
    Position.addL ⟨0, 0⟩ (Text.lengthT ⟨[['a', 'b']]⟩) = ⟨0, 2⟩ ∧
    (⟨0, 0⟩ : Position) ≠ ⟨0, 2⟩ := by decide

/-- C3 (amended): `Position::apply_change` for `Insert(P, x)` of length
`L` leaves every `Q < P` unchanged under either drift; at `Q = P`,
`Drift::After` leaves the position unchanged while `Drift::Before`
shifts it by `L`; every `Q > P` is shifted by `L`: its line index grows
by `L.line_count`, and its byte offset becomes `Q.byte + L.byte_count`
when the insertion is on `Q`'s line (offset `L.byte_count +
(Q.byte - P.byte)` for a multi-line insertion), and is unchanged when
`Q` lies on a later line.  For `Delete(start, length)`, every position
in the deleted range (`start ≤ Q ≤ start + length`) collapses to
`start`, and every `Q < start` is unchanged. -/
theorem position_apply_change_characterized :
    (∀ (q pos : Position) (x : Text) (d : Drift), q < pos →
      q.applyChange (.insert pos x) d = q) ∧
    (∀ (pos : Position) (x : Text),
      pos.applyChange (.insert pos x) .after = pos ∧
      pos.applyChange (.insert pos x) .before = pos.addL x.lengthT) ∧
    (∀ (q pos : Position) (x : Text) (d : Drift), pos < q →
      q.applyChange (.insert pos x) d =
        (if q.line_index = pos.line_index then
          (if x.lengthT.line_count = 0 then
            ⟨q.line_index, q.byte_index + x.lengthT.byte_count⟩
          else
            ⟨pos.line_index + x.lengthT.line_count,
              x.lengthT.byte_count + (q.byte_index - pos.byte_index)⟩)
        else ⟨q.line_index + x.lengthT.line_count, q.byte_index⟩)) ∧
    (∀ (q start : Position) (len : Length) (d : Drift),
      start ≤ q → q ≤ start.addL len →
      q.applyChange (.delete start len) d = start) ∧
    (∀ (q start : Position) (len : Length) (d : Drift), q < start →
      q.applyChange (.delete start len) d = q) := by
  refine ⟨?_, ?_, ?_, ?_, ?_⟩
  · intro q pos x d h
    simp only [Position.applyChange, if_pos h]
  · intro pos x
    have h1 : ¬ (pos < pos) := by
      rw [Position.lt_def]; omega
    constructor <;> simp [Position.applyChange, if_neg h1]
  · intro q pos x d h
    have hnlt : ¬ q < pos := by
      rw [Position.lt_def]; rw [Position.lt_def] at h; omega
    have hne : ¬ q = pos := by
      rw [Position.lt_def] at h
      intro hc; subst hc; omega
    simp only [Position.applyChange, if_neg hnlt, if_neg hne]
    rw [Position.lt_def] at h
    generalize x.lengthT = L
    obtain ⟨ql, qb⟩ := q
    obtain ⟨pl, pb⟩ := pos
    obtain ⟨lc, bc⟩ := L
    simp only [Position.addL, Position.subP] at h ⊢
    split_ifs <;> (try simp_all) <;> omega
  · intro q start len d h1 h2
    have hnlt : ¬ q < start := by
      rw [Position.lt_def]; rw [Position.le_def] at h1; omega
    simp only [Position.applyChange, if_neg hnlt]
    have hmin : Position.minP (start.addL len) q = q := by
      unfold Position.minP
      split_ifs with h3
      · generalize hE : start.addL len = e at h2 h3 ⊢
        obtain ⟨a, b⟩ := e
        obtain ⟨c, d'⟩ := q
        have h2' : c < a ∨ (c = a ∧ d' ≤ b) := h2
        have h3' : a < c ∨ (a = c ∧ b ≤ d') := h3
        simp only [Position.mk.injEq]
        omega
      · rfl
    rw [hmin]
    have hsub : q.subP q = ⟨0, 0⟩ := by
      simp [Position.subP]
    rw [hsub]
    simp [Position.addL]
  · intro q start len d h
    simp only [Position.applyChange, if_pos h]

/-- Witness for C3's amended theorem at concrete inputs: an insertion
of `"x\ny"` (length `(1,1)`) at `(0,2)` shifts `(0,5)` to `(1,4)` and
leaves `(0,1)` alone; deleting `(0,2)` bytes at `(1,1)` collapses
`(1,2)` to `(1,1)`. -/
theorem position_apply_change_characterized_w :
    Position.applyChange ⟨0, 5⟩ (.insert ⟨0, 2⟩ ⟨[['x'], ['y']]⟩) .after = ⟨1, 4⟩ ∧
    Position.applyChange ⟨0, 1⟩ (.insert ⟨0, 2⟩ ⟨[['x'], ['y']]⟩) .after = ⟨0, 1⟩ ∧
    Position.applyChange ⟨1, 2⟩ (.delete ⟨1, 1⟩ ⟨0, 2⟩) .before = ⟨1, 1⟩ := by
  refine ⟨?_, ?_, ?_⟩
  · rw [position_apply_change_characterized.2.2.1 ⟨0, 5⟩ ⟨0, 2⟩ ⟨[['x'], ['y']]⟩ .after
      (by decide)]
    decide
  · exact position_apply_change_characterized.1 ⟨0, 1⟩ ⟨0, 2⟩ ⟨[['x'], ['y']]⟩ .after
      (by decide)
  · exact position_apply_change_characterized.2.2.2.1 ⟨1, 2⟩ ⟨1, 1⟩ ⟨0, 2⟩ .before
      (by decide) (by decide)

/-- `selection.rs`: `Affinity` (`Before` is the `Default`). -/
inductive Affinity where
  | before
  | after
deriving DecidableEq

/-- `selection.rs`: `Cursor { position, affinity }`. -/
structure Cursor where
  position : Position
  affinity : Affinity
deriving DecidableEq

/-- `selection.rs`: `Region { cursor, anchor }`. -/
structure Region where
  cursor : Cursor
  anchor : Position
deriving DecidableEq

/-- The `Default` region: zero cursor and anchor, affinity `Before`. -/
def Region.zero : Region := ⟨⟨⟨0, 0⟩, .before⟩, ⟨0, 0⟩⟩

/-- `selection.rs`: `Region::start()`. -/
def Region.start (r : Region) : Position := r.cursor.position.minP r.anchor

/-- `selection.rs`: `Region::end()`. -/
def Region.endP (r : Region) : Position := r.cursor.position.maxP r.anchor

/-- `selection.rs`: `Region::length()`. -/
def Region.lengthR (r : Region) : Length := r.endP.subP r.start

/-- `selection.rs`: `Region::is_empty()`. -/
def Region.isEmptyR (r : Region) : Bool := decide (r.lengthR = Length.empty)

/-- `selection.rs`: `Region::overlaps_with(other)`: `end() >= start()`
when either region is empty, strict `end() > start()` otherwise. -/
def Region.overlapsWith (r other : Region) : Bool :=
  if r.isEmptyR || other.isEmptyR then decide (other.start ≤ r.endP)
  else decide (other.start < r.endP)

/-- `selection.rs`: `Region::update_cursor(f)`. -/
def Region.updateCursor (r : Region) (f : Cursor → Cursor) : Region :=
  { r with cursor := f r.cursor }

/-- `selection.rs`: `Region::reset_anchor()`. -/
def Region.resetAnchor (r : Region) : Region :=
  { r with anchor := r.cursor.position }

/-- `selection.rs`: `Region::apply_change(change)`: drift is
direction-aware — a backward (or empty) region's cursor drifts
`Before` and its anchor `After`; a forward region the reverse. -/
def Region.applyChangeR (r : Region) (c : Change) : Region :=
  if r.cursor.position ≤ r.anchor then
    { cursor := { r.cursor with position := r.cursor.position.applyChange c .before },
      anchor := r.anchor.applyChange c .after }
  else
    { cursor := { r.cursor with position := r.cursor.position.applyChange c .after },
      anchor := r.anchor.applyChange c .before }

/-- `selection.rs`: `Region::merge_with(other)`: `None` unless the two
regions overlap; the merged region keeps `self`'s cursor when `self`
points backward (cursor at its start), else takes `other`'s cursor. -/
def Region.mergeWith (r other : Region) : Option Region :=
  if ¬ (r.overlapsWith other = true) then none
  else if r.cursor.position ≤ r.anchor then
    some { cursor := r.cursor, anchor := other.anchor }
  else
    some { cursor := other.cursor, anchor := r.anchor }

/-- `selection.rs`: `Selection { regions: Vec<Region> }`. -/
structure Selection where
  regions : List Region
deriving DecidableEq

/-- The `Default` selection: one default region. -/
def Selection.zero : Selection := ⟨[Region.zero]⟩

/-- `selection.rs`: `Selection::set(region)`. -/
def Selection.setR (_s : Selection) (r : Region) : Selection := ⟨[r]⟩

/-- `selection.rs`: `Selection::add(region)`: binary-search the
insertion point by `start()` and insert without any merging.  The
binary search is modelled by its specification: the region is inserted
before the first existing region whose start is not below the new
region's start. -/
def Selection.add (s : Selection) (r : Region) : Selection × Nat :=
  let index := (s.regions.takeWhile (fun x => decide (x.start < r.start))).length
  (⟨s.regions.take index ++ r :: s.regions.drop index⟩, index)

/-- `selection.rs`: `Selection::update(index, f)`: apply `f` to the
region at `index`, then remove the predecessors that overlap it
(nearest first, stopping at the first that does not), then likewise the
successors.  The two source `while` loops are modelled as `dropWhile`
from the end of the left part and from the start of the right part. -/
def Selection.update (s : Selection) (index : Nat) (f : Region → Region) :
    Selection × Nat :=
  let r := f (s.regions.getD index Region.zero)
  let left := s.regions.take index
  let right := s.regions.drop (index + 1)
  let left' := left.rdropWhile (fun x => x.overlapsWith r)
  let right' := right.dropWhile (fun x => r.overlapsWith x)
  (⟨left' ++ r :: right'⟩, left'.length)

/-- `selection.rs`: the merge loop of `Selection::update_all` after `f`
has been applied to every region.  `acc` holds the already-emitted
regions, `cur` the region under examination, `idx` the tracked index.
`none` models the `assert!(current.start() <= next.start())` panic. -/
def mergeLoop (acc : List Region) (cur : Region) (idx : Nat) :
    List Region → Option (List Region × Nat)
  | [] => some (acc ++ [cur], idx)
  | next :: rest =>
    if cur.start ≤ next.start then
      match cur.mergeWith next with
      | some m => mergeLoop acc m (if acc.length + 1 < idx then idx - 1 else idx) rest
      | none => mergeLoop (acc ++ [cur]) next idx rest
    else none

/-- `selection.rs`: `Selection::update_all(index, f)` (`none` when the
sortedness assertion fires). -/
def Selection.updateAll (s : Selection) (index : Nat) (f : Region → Region) :
    Option (Selection × Nat) :=
  match s.regions.map f with
  | [] => some (⟨[]⟩, index)
  | r :: rest => (mergeLoop [] r index rest).map (fun p => (⟨p.1⟩, p.2))

/-- `selection.rs`: `Selection::apply_change(change)`: remap every
region, with no merging afterwards. -/
def Selection.applyChangeS (s : Selection) (c : Change) : Selection :=
  ⟨s.regions.map (fun r => r.applyChangeR c)⟩

/-- `move_ops.rs`: `is_at_first_line`. -/
def isAtFirstLine (p : Position) : Prop := p.line_index = 0

/-- `move_ops.rs`: `is_at_last_line`.  NOTE: the source compares
`position.line_index == lines.len()`, not `lines.len() - 1`. -/
def isAtLastLine (p : Position) (lines : List BufLine) : Prop :=
  p.line_index = lines.length

/-- `move_ops.rs`: `is_at_start_of_line`. -/
def isAtStartOfLine (p : Position) : Prop := p.byte_index = 0

/-- `move_ops.rs`: `is_at_end_of_line`. -/
def isAtEndOfLine (p : Position) (lines : List BufLine) : Prop :=
  p.byte_index = (lines.getD p.line_index []).length

instance (p : Position) : Decidable (isAtFirstLine p) :=
  inferInstanceAs (Decidable (p.line_index = 0))

instance (p : Position) (lines : List BufLine) : Decidable (isAtLastLine p lines) :=
  inferInstanceAs (Decidable (p.line_index = lines.length))

instance (p : Position) : Decidable (isAtStartOfLine p) :=
  inferInstanceAs (Decidable (p.byte_index = 0))

instance (p : Position) (lines : List BufLine) : Decidable (isAtEndOfLine p lines) :=
  inferInstanceAs (Decidable (p.byte_index = (lines.getD p.line_index []).length))

/-- `move_ops.rs`: `move_to_prev_grapheme`.  Modelled from the spec:
grapheme segmentation is an external collaborator, modelled with one
grapheme per character, so the previous boundary is one byte back. -/
def moveToPrevGrapheme (p : Position) (_lines : List BufLine) : Position :=
  ⟨p.line_index, p.byte_index - 1⟩

/-- `move_ops.rs`: `move_to_next_grapheme`.  Modelled from the spec:
with one grapheme per character the next boundary is one byte forward,
clamped to the line length (the source falls back to `line.len()`). -/
def moveToNextGrapheme (p : Position) (lines : List BufLine) : Position :=
  ⟨p.line_index, Nat.min (p.byte_index + 1) (lines.getD p.line_index []).length⟩

/-- `move_ops.rs`: `move_to_end_of_prev_line`. -/
def moveToEndOfPrevLine (p : Position) (lines : List BufLine) : Position :=
  ⟨p.line_index - 1, (lines.getD (p.line_index - 1) []).length⟩

/-- `move_ops.rs`: `move_to_start_of_next_line`. -/
def moveToStartOfNextLine (p : Position) : Position :=
  ⟨p.line_index + 1, 0⟩

/-- `move_ops.rs`: `move_left`. -/
def moveLeft (c : Cursor) (lines : List BufLine) : Cursor :=
  { c with position :=
      if ¬ isAtStartOfLine c.position then moveToPrevGrapheme c.position lines
      else if ¬ isAtFirstLine c.position then moveToEndOfPrevLine c.position lines
      else c.position }

/-- `move_ops.rs`: `move_right`. -/
def moveRight (c : Cursor) (lines : List BufLine) : Cursor :=
  { c with position :=
      if ¬ isAtEndOfLine c.position lines then moveToNextGrapheme c.position lines
      else if ¬ isAtLastLine c.position lines then moveToStartOfNextLine c.position
      else c.position }

/-- C9: at the end of the last line of the one-line document `["ab"]`,
`move_right` does not stay put: because `is_at_last_line` compares the
line index against `lines.len()` instead of `lines.len() - 1`, the
cursor is moved to `(1, 0)` — a line index equal to the number of
lines, i.e. outside the document (`move_left` at document start, by
contrast, stays put). -/
theorem move_right_at_document_end_escapes :
    moveRight ⟨⟨0, 2⟩, .before⟩ [['a', 'b']] = ⟨⟨1, 0⟩, .before⟩ ∧
    ([['a', 'b']] : List BufLine).length = 1 ∧
    moveLeft ⟨⟨0, 0⟩, .before⟩ [['a', 'b']] = ⟨⟨0, 0⟩, .before⟩ := by decide

/-- C4's invariant between two selection regions, exactly as the claim
words it: sorted by `start()`, and not overlapping in the sense of
`Region::overlaps_with`. -/
def regionOrdered (a b : Region) : Prop :=
  a.start ≤ b.start ∧ a.overlapsWith b = false

instance : DecidableRel regionOrdered := fun a b =>
  inferInstanceAs (Decidable (a.start ≤ b.start ∧ a.overlapsWith b = false))

/-- The selection invariant of C4: every pair of regions (in list
order) is sorted by start and non-overlapping. -/
def SelInvariant (s : Selection) : Prop :=
  s.regions.Pairwise regionOrdered

instance (s : Selection) : Decidable (SelInvariant s) :=
  inferInstanceAs (Decidable (s.regions.Pairwise regionOrdered))

theorem Region.start_le_endP (r : Region) : r.start ≤ r.endP := by
  unfold Region.start Region.endP Position.minP Position.maxP
  split_ifs with h
  · exact h
  · exact le_of_not_le h

theorem not_overlaps_le {a b : Region} (h : a.overlapsWith b = false) :
    a.endP ≤ b.start := by
  unfold Region.overlapsWith at h
  split_ifs at h with hc
  · exact le_of_lt (not_le.mp (of_decide_eq_false h))
  · exact not_lt.mp (of_decide_eq_false h)

theorem not_overlaps_lt {a b : Region} (h : a.overlapsWith b = false)
    (he : (a.isEmptyR || b.isEmptyR) = true) : a.endP < b.start := by
  unfold Region.overlapsWith at h
  rw [if_pos he] at h
  exact not_le.mp (of_decide_eq_false h)

/-- `regionOrdered` is transitive (this is what lets local overlap
repairs reestablish the global pairwise invariant). -/
theorem regionOrdered_trans {a b c : Region} (h1 : regionOrdered a b)
    (h2 : regionOrdered b c) : regionOrdered a c := by
  obtain ⟨hs1, ho1⟩ := h1
  obtain ⟨hs2, ho2⟩ := h2
  have hab : a.endP ≤ b.start := not_overlaps_le ho1
  have hbc : b.endP ≤ c.start := not_overlaps_le ho2
  have hbb : b.start ≤ b.endP := Region.start_le_endP b
  refine ⟨le_trans hs1 hs2, ?_⟩
  unfold Region.overlapsWith
  split_ifs with hc
  · rw [decide_eq_false_iff_not, not_le]
    rcases Bool.or_eq_true _ _ |>.mp hc with ha | hcE
    · have h1' : a.endP < b.start := not_overlaps_lt ho1 (by simp [ha])
      exact lt_of_lt_of_le h1' (le_trans hbb hbc)
    · have h2' : b.endP < c.start := not_overlaps_lt ho2 (by simp [hcE])
      exact lt_of_le_of_lt (le_trans hab hbb) h2'
  · rw [decide_eq_false_iff_not, not_lt]
    exact le_trans hab (le_trans hbb hbc)

/-- Splicing a list back together around the element at index `i`. -/
theorem take_getD_drop {α : Type} (l : List α) (i : Nat) (h : i < l.length) (d : α) :
    l.take i ++ l.getD i d :: l.drop (i + 1) = l := by
  induction l generalizing i with
  | nil => simp at h
  | cons x xs ih =>
    cases i with
    | zero => simp [List.getD]
    | succ n =>
      simp only [List.take_succ_cons, List.getD_cons_succ, List.drop_succ_cons,
        List.cons_append, List.cons.injEq, true_and]
      exact ih n (by simpa using h)

theorem rel_all_of_pairwise_last {l : List Region} {x lst : Region}
    (hp : (l ++ [lst]).Pairwise regionOrdered)
    (hlast : regionOrdered lst x) :
    ∀ a ∈ l ++ [lst], regionOrdered a x := by
  intro a ha
  rcases List.mem_append.mp ha with ha | ha
  · exact regionOrdered_trans
      ((List.pairwise_append.mp hp).2.2 a ha lst (by simp)) hlast
  · simp only [List.mem_singleton] at ha
    subst ha
    exact hlast

theorem rel_all_of_pairwise_head {tl : List Region} {x hd : Region}
    (hp : (hd :: tl).Pairwise regionOrdered)
    (hhd : regionOrdered x hd) :
    ∀ b ∈ hd :: tl, regionOrdered x b := by
  intro b hb
  rcases List.mem_cons.mp hb with rfl | hb
  · exact hhd
  · exact regionOrdered_trans hhd (List.rel_of_pairwise_cons hp hb)

/-- The first element surviving `dropWhile` fails the predicate. -/
theorem head?_dropWhile_not_prop {a : Type} (p : a → Bool) (l : List a) {x : a}
    (h : (l.dropWhile p).head? = some x) : p x = false := by
  induction l with
  | nil => simp [List.dropWhile] at h
  | cons c l ih =>
    rw [List.dropWhile_cons] at h
    by_cases hp : p c
    · rw [if_pos hp] at h
      exact ih h
    · rw [if_neg hp] at h
      simp only [List.head?_cons, Option.some.injEq] at h
      subst h
      exact Bool.not_eq_true _ |>.mp hp

/-- The last element surviving `rdropWhile` fails the predicate. -/
theorem getLast?_rdropWhile_not {a : Type} (p : a → Bool) (l : List a) {x : a}
    (h : (l.rdropWhile p).getLast? = some x) : p x = false := by
  unfold List.rdropWhile at h
  rw [List.getLast?_reverse] at h
  exact head?_dropWhile_not_prop p l.reverse h

/-- Core of the update part of C4: gluing the locally repaired parts
back together preserves the pairwise invariant. -/
theorem update_invariant_core (left right : List Region) (r : Region)
    (hL : left.Pairwise regionOrdered) (hR : right.Pairwise regionOrdered) :
    (left.rdropWhile (fun x => x.overlapsWith r) ++
      r :: right.dropWhile (fun x => r.overlapsWith x)).Pairwise regionOrdered := by
  have hL' : (left.rdropWhile (fun x => x.overlapsWith r)).Pairwise regionOrdered :=
    hL.sublist ( List.rdropWhile_prefix _ left).sublist
  have hR' : (right.dropWhile (fun x => r.overlapsWith x)).Pairwise regionOrdered :=
    hR.sublist (List.dropWhile_suffix _).sublist
  have hrA : ∀ b ∈ right.dropWhile (fun x => r.overlapsWith x), regionOrdered r b := by
    intro b hb
    rcases hcase : right.dropWhile (fun x => r.overlapsWith x) with _ | ⟨hd, tl⟩
    · rw [hcase] at hb
      exact absurd hb (List.not_mem_nil b)
    · rw [hcase] at hb hR'
      have hhd : r.overlapsWith hd = false := by
        apply head?_dropWhile_not_prop (fun x => r.overlapsWith x) right
        rw [hcase]
        rfl
      have hord : regionOrdered r hd :=
        ⟨le_trans (Region.start_le_endP r) (not_overlaps_le hhd), hhd⟩
      exact rel_all_of_pairwise_head hR' hord b hb
  have hAr : ∀ a ∈ left.rdropWhile (fun x => x.overlapsWith r), regionOrdered a r := by
    rcases List.eq_nil_or_concat (left.rdropWhile (fun x => x.overlapsWith r)) with
      hnil | ⟨init, lst, hconcat⟩
    · rw [hnil]
      intro a ha
      exact absurd ha (List.not_mem_nil a)
    · rw [List.concat_eq_append] at hconcat
      have hlst : lst.overlapsWith r = false := by
        apply getLast?_rdropWhile_not (fun x => x.overlapsWith r) left
        rw [hconcat, List.getLast?_concat]
      have hord : regionOrdered lst r :=
        ⟨le_trans (Region.start_le_endP lst) (not_overlaps_le hlst), hlst⟩
      rw [hconcat] at hL' ⊢
      exact rel_all_of_pairwise_last hL' hord
  rw [List.pairwise_append]
  refine ⟨hL', List.pairwise_cons.mpr ⟨hrA, hR'⟩, ?_⟩
  intro a ha b hb
  rcases List.mem_cons.mp hb with rfl | hb
  · exact hAr a ha
  · exact regionOrdered_trans (hAr a ha) (hrA b hb)

/-- The update part of C4 (amended): `Selection::update` reestablishes
the sorted/non-overlapping invariant when it held beforehand. -/
theorem update_preserves_invariant (s : Selection) (index : Nat) (f : Region → Region)
    (hs : SelInvariant s) (hidx : index < s.regions.length) :
    SelInvariant (s.update index f).1 := by
  have hdecomp : s.regions.take index ++
      s.regions.getD index Region.zero :: s.regions.drop (index + 1) = s.regions :=
    take_getD_drop s.regions index hidx Region.zero
  unfold SelInvariant at hs
  rw [← hdecomp] at hs
  have hL : (s.regions.take index).Pairwise regionOrdered :=
    (List.pairwise_append.mp hs).1
  have hR : (s.regions.drop (index + 1)).Pairwise regionOrdered :=
    (List.pairwise_cons.mp (List.pairwise_append.mp hs).2.1).2
  unfold SelInvariant Selection.update
  exact update_invariant_core _ _ _ hL hR

/-- C4 fails as stated: `Selection::add` inserts by binary search
without any merge repair, so adding an empty region strictly inside an
existing region leaves two overlapping regions in the selection. -/
theorem selection_add_leaves_overlap :
    SelInvariant ⟨[⟨⟨⟨0, 0⟩, .before⟩, ⟨0, 5⟩⟩]⟩ ∧
    ¬ SelInvariant
      ((Selection.add ⟨[⟨⟨⟨0, 0⟩, .before⟩, ⟨0, 5⟩⟩]⟩
        ⟨⟨⟨0, 2⟩, .before⟩, ⟨0, 2⟩⟩).1) := by decide

/-- C4 (amended): `Selection::set` always establishes the
sorted/non-overlapping invariant, and `Selection::update` reestablishes
it whenever it held before the mutation (for an in-bounds index);
`add` and `apply_change` perform no merge repair, and `update_all`'s
merge pass can leave an empty merged region abutting its non-empty
predecessor, so those three do not guarantee the invariant. -/
theorem selection_set_update_keep_invariant :
    (∀ (s : Selection) (r : Region), SelInvariant (s.setR r)) ∧
    (∀ (s : Selection) (index : Nat) (f : Region → Region),
      SelInvariant s → index < s.regions.length →
      SelInvariant (s.update index f).1) := by
  constructor
  · intro s r
    unfold SelInvariant Selection.setR
    simp
  · exact update_preserves_invariant

/-- Witness for C4's amended theorem: a concrete `set` and a concrete
`update` that moves the second of three regions, swallowing the
overlapping third. -/
theorem selection_set_update_keep_invariant_w :
    SelInvariant (Selection.setR Selection.zero
      ⟨⟨⟨0, 3⟩, .before⟩, ⟨0, 7⟩⟩) ∧
    SelInvariant ((Selection.update
      ⟨[⟨⟨⟨0, 0⟩, .before⟩, ⟨0, 1⟩⟩, ⟨⟨⟨0, 4⟩, .before⟩, ⟨0, 5⟩⟩,
        ⟨⟨⟨0, 8⟩, .before⟩, ⟨0, 9⟩⟩]⟩ 1
      (fun _ => ⟨⟨⟨0, 4⟩, .before⟩, ⟨0, 9⟩⟩)).1) :=
  ⟨selection_set_update_keep_invariant.1 Selection.zero ⟨⟨⟨0, 3⟩, .before⟩, ⟨0, 7⟩⟩,
   selection_set_update_keep_invariant.2
     ⟨[⟨⟨⟨0, 0⟩, .before⟩, ⟨0, 1⟩⟩, ⟨⟨⟨0, 4⟩, .before⟩, ⟨0, 5⟩⟩,
       ⟨⟨⟨0, 8⟩, .before⟩, ⟨0, 9⟩⟩]⟩ 1
     (fun _ => ⟨⟨⟨0, 4⟩, .before⟩, ⟨0, 9⟩⟩) (by decide) (by decide)⟩

/-- Supporting fact for C4's amendment: `Selection::apply_change`
performs no merge repair — a deletion covering two regions collapses
both onto the deletion start, leaving two overlapping empty regions. -/
theorem apply_change_can_leave_overlap :
    SelInvariant ⟨[⟨⟨⟨0, 1⟩, .before⟩, ⟨0, 2⟩⟩, ⟨⟨⟨0, 3⟩, .before⟩, ⟨0, 4⟩⟩]⟩ ∧
    ¬ SelInvariant (Selection.applyChangeS
      ⟨[⟨⟨⟨0, 1⟩, .before⟩, ⟨0, 2⟩⟩, ⟨⟨⟨0, 3⟩, .before⟩, ⟨0, 4⟩⟩]⟩
      (.delete ⟨0, 0⟩ ⟨0, 10⟩)) := by decide

/-- Supporting fact for C4's amendment: `Selection::update_all`'s
merge pass can produce an empty merged region abutting its non-empty
predecessor — the pass never re-examines that earlier pair, so the
result violates the invariant even though the sortedness assertions
all pass. -/
theorem update_all_can_leave_overlap :
    Selection.updateAll
      ⟨[Region.zero, ⟨⟨⟨1, 0⟩, .before⟩, ⟨1, 0⟩⟩, ⟨⟨⟨2, 0⟩, .before⟩, ⟨2, 0⟩⟩]⟩ 0
      (fun r =>
        if r = Region.zero then ⟨⟨⟨0, 0⟩, .before⟩, ⟨0, 2⟩⟩
        else if r = ⟨⟨⟨1, 0⟩, .before⟩, ⟨1, 0⟩⟩ then ⟨⟨⟨0, 2⟩, .before⟩, ⟨0, 4⟩⟩
        else ⟨⟨⟨0, 2⟩, .before⟩, ⟨0, 2⟩⟩) =
      some (⟨[⟨⟨⟨0, 0⟩, .before⟩, ⟨0, 2⟩⟩, ⟨⟨⟨0, 2⟩, .before⟩, ⟨0, 2⟩⟩]⟩, 0) ∧
    ¬ SelInvariant ⟨[⟨⟨⟨0, 0⟩, .before⟩, ⟨0, 2⟩⟩, ⟨⟨⟨0, 2⟩, .before⟩, ⟨0, 2⟩⟩]⟩ := by
  decide

/-- `history.rs`: `EditKind`. -/
inductive EditKind where
  | insert
  | delete
deriving DecidableEq

/-- `history.rs`: `EditKind::groups_with` (plain equality: `Insert`
never groups with `Delete`). -/
def EditKind.groupsWith (a b : EditKind) : Bool := a == b

/-- `state.rs`: `SessionId` (opaque numeric id). -/
abbrev SessionId := Nat

/-- `history.rs`: `EditStackEntry { selection, changes_start }`. -/
structure EditStackEntry where
  selection : Selection
  changes_start : Nat
deriving DecidableEq

/-- `history.rs`: `EditStack { entries, changes }`. -/
structure EditStack where
  entries : List EditStackEntry
  changes : List Change
deriving DecidableEq

/-- `history.rs`: `EditStack::push_selection`. -/
def EditStack.pushSelection (s : EditStack) (sel : Selection) : EditStack :=
  ⟨s.entries ++ [⟨sel, s.changes.length⟩], s.changes⟩

/-- `history.rs`: `EditStack::push_change` (the source asserts that
`entries` is non-empty; the push itself is unconditional). -/
def EditStack.pushChange (s : EditStack) (c : Change) : EditStack :=
  ⟨s.entries, s.changes ++ [c]⟩

/-- `history.rs`: `EditStack::pop_until_selection`: pop the most recent
group, draining its changes, in reverse, into the out vector. -/
def EditStack.popUntilSelection (s : EditStack) :
    Option (Selection × List Change × EditStack) :=
  match s.entries.getLast? with
  | none => none
  | some e =>
    some (e.selection, (s.changes.drop e.changes_start).reverse,
      ⟨s.entries.dropLast, s.changes.take e.changes_start⟩)

/-- `history.rs`: `EditStack::clear`. -/
def EditStack.clearS : EditStack := ⟨[], []⟩

/-- `history.rs`: `History`. -/
structure History where
  text : Text
  prev_edit : Option (SessionId × EditKind)
  undo_stack : EditStack
  redo_stack : EditStack
deriving DecidableEq

/-- `impl From<Text> for History`. -/
def History.fromText (t : Text) : History := ⟨t, none, ⟨[], []⟩, ⟨[], []⟩⟩

/-- `history.rs`: `History::force_new_undo_group`. -/
def History.forceNewUndoGroup (h : History) : History :=
  { h with prev_edit := none }

/-- The grouping test of `History::edit`: the previous edit was by the
same session and of a kind that groups with the new one. -/
def History.prevMatches (h : History) (session : SessionId) (kind : EditKind) : Bool :=
  match h.prev_edit with
  | some (ps, pk) => ps == session && pk.groupsWith kind
  | none => false

/-- `history.rs`: the group-opening part of `History::edit`: start a
fresh undo group anchored at the current selection unless coalescing,
and always clear the redo stack. -/
def History.editOpen (h : History) (session : SessionId) (kind : EditKind)
    (sel : Selection) : History :=
  let h1 :=
    if h.prevMatches session kind then h
    else { h with prev_edit := some (session, kind),
                  undo_stack := h.undo_stack.pushSelection sel }
  { h1 with redo_stack := EditStack.clearS }

/-- `history.rs`: `Edit::apply_change`: invert against the pre-change
buffer, apply the change, push the inverse onto the open undo group
(the change itself is also appended to the caller's change log, which
is tracked separately where a theorem needs it). -/
def History.applyEditChange (h : History) (c : Change) : History :=
  { h with text := h.text.applyChange c,
           undo_stack := h.undo_stack.pushChange (c.invert h.text) }

/-- One full `History::edit` scope: open the group, then apply each
change through `Edit::apply_change`. -/
def History.runScope (h : History) (session : SessionId) (kind : EditKind)
    (sel : Selection) (cs : List Change) : History :=
  cs.foldl History.applyEditChange (h.editOpen session kind sel)

/-- `history.rs`: `History::undo`.  Returns the new history, the final
contents of the caller's change vector (`cs0` on entry; the source's
`for change in changes` iterates the whole vector), and the popped
group's stored selection. -/
def History.undo (h : History) (sel : Selection) (cs0 : List Change) :
    History × List Change × Option Selection :=
  match h.undo_stack.popUntilSelection with
  | none => (h, cs0, none)
  | some (newSel, drained, undo1) =>
    let allCs := cs0 ++ drained
    let init := (h.text, h.redo_stack.pushSelection sel)
    let out := allCs.foldl
      (fun acc c => (acc.1.applyChange c, acc.2.pushChange (c.invert acc.1))) init
    ({ text := out.1, prev_edit := h.prev_edit, undo_stack := undo1,
       redo_stack := out.2 }, allCs, some newSel)

/-- `history.rs`: `History::redo` (mirror of `undo`, swapping the two
stacks). -/
def History.redo (h : History) (sel : Selection) (cs0 : List Change) :
    History × List Change × Option Selection :=
  match h.redo_stack.popUntilSelection with
  | none => (h, cs0, none)
  | some (newSel, drained, redo1) =>
    let allCs := cs0 ++ drained
    let init := (h.text, h.undo_stack.pushSelection sel)
    let out := allCs.foldl
      (fun acc c => (acc.1.applyChange c, acc.2.pushChange (c.invert acc.1))) init
    ({ text := out.1, prev_edit := h.prev_edit, undo_stack := out.2,
       redo_stack := redo1 }, allCs, some newSel)

/-- C6: `History::undo` on an empty undo stack (and `History::redo` on
an empty redo stack) returns `None`, appends nothing to the caller's
change vector, and leaves the text, both stacks and the grouping
marker untouched: the entire history value is returned unchanged. -/
theorem undo_redo_empty_stack_noop (h : History) (sel : Selection) (cs0 : List Change) :
    (h.undo_stack.entries = [] → h.undo sel cs0 = (h, cs0, none)) ∧
    (h.redo_stack.entries = [] → h.redo sel cs0 = (h, cs0, none)) := by
  constructor
  · intro he
    unfold History.undo EditStack.popUntilSelection
    rw [he]
    rfl
  · intro he
    unfold History.redo EditStack.popUntilSelection
    rw [he]
    rfl

/-- Witness for C6 at a concrete fresh history. -/
theorem undo_redo_empty_stack_noop_w :
    (History.fromText ⟨[['h', 'i']]⟩).undo Selection.zero [] =
      (History.fromText ⟨[['h', 'i']]⟩, [], none) ∧
    (History.fromText ⟨[['h', 'i']]⟩).redo Selection.zero [] =
      (History.fromText ⟨[['h', 'i']]⟩, [], none) :=
  ⟨(undo_redo_empty_stack_noop (History.fromText ⟨[['h', 'i']]⟩)
      Selection.zero []).1 rfl,
   (undo_redo_empty_stack_noop (History.fromText ⟨[['h', 'i']]⟩)
      Selection.zero []).2 rfl⟩

/-- A change is in bounds for a buffer (the source treats out-of-bounds
positions as fatal programming errors, so the round-trip claims only
quantify over valid changes). -/
def ChangeValid (t : Text) : Change → Prop
  | .insert p x =>
    x.lines ≠ [] ∧ p.line_index < t.lines.length ∧
      p.byte_index ≤ (lineAt t p.line_index).length
  | .delete s l =>
    (s.addL l).line_index < t.lines.length ∧
      s.byte_index ≤ (lineAt t s.line_index).length ∧
      (s.addL l).byte_index ≤ (lineAt t (s.addL l).line_index).length

instance (t : Text) : (c : Change) → Decidable (ChangeValid t c)
  | .insert p x =>
    inferInstanceAs (Decidable (x.lines ≠ [] ∧ p.line_index < t.lines.length ∧
      p.byte_index ≤ (lineAt t p.line_index).length))
  | .delete s l =>
    inferInstanceAs (Decidable ((s.addL l).line_index < t.lines.length ∧
      s.byte_index ≤ (lineAt t s.line_index).length ∧
      (s.addL l).byte_index ≤ (lineAt t (s.addL l).line_index).length))

theorem getD_append_length {α : Type} (P : List α) (x : α) (S : List α) (d : α) :
    (P ++ x :: S).getD P.length d = x := by
  induction P with
  | nil => rfl
  | cons a P ih => simpa using ih

theorem drop_eq_getD_cons {α : Type} (l : List α) (j : Nat) (h : j < l.length) (d : α) :
    l.drop j = l.getD j d :: l.drop (j + 1) := by
  induction l generalizing j with
  | nil => simp at h
  | cons a l ih =>
    cases j with
    | zero => simp [List.getD]
    | succ n =>
      simp only [List.drop_succ_cons, List.getD_cons_succ]
      exact ih n (by simpa using h)

theorem getLastD_irrel {α : Type} (l : List α) (h : l ≠ []) (d1 d2 : α) :
    l.getLastD d1 = l.getLastD d2 := by
  induction l generalizing d1 d2 with
  | nil => exact absurd rfl h
  | cons a l ih =>
    cases l with
    | nil => rfl
    | cons b l' =>
      rw [List.getLastD_cons d1 a (b :: l'), List.getLastD_cons d2 a (b :: l')]

theorem appendToLast_eq (xs : List BufLine) (suf : BufLine) (h : xs ≠ []) :
    appendToLast xs suf = xs.dropLast ++ [xs.getLastD [] ++ suf] := by
  induction xs with
  | nil => exact absurd rfl h
  | cons a xs ih =>
    cases xs with
    | nil => rfl
    | cons b xs' =>
      show a :: appendToLast (b :: xs') suf = _
      rw [ih (by simp)]
      simp only [List.dropLast_cons₂, List.cons_append, List.cons.injEq, true_and]
      rw [List.getLastD_cons [] a (b :: xs')]
      rw [getLastD_irrel (b :: xs') (by simp) a []]

theorem getD_splice {α : Type} (L : List α) (i : Nat) (x : α) (d : α) (h : i < L.length) :
    (L.take i ++ x :: L.drop (i + 1)).getD i d = x := by
  have hP : (L.take i).length = i := by rw [List.length_take]; omega
  calc (L.take i ++ x :: L.drop (i + 1)).getD i d
      = (L.take i ++ x :: L.drop (i + 1)).getD (L.take i).length d := by rw [hP]
    _ = x := getD_append_length _ _ _ _

theorem take_splice {α : Type} (L : List α) (i : Nat) (x : α) (S : List α)
    (h : i ≤ L.length) : (L.take i ++ x :: S).take i = L.take i :=
  List.take_left' (by rw [List.length_take]; omega)

theorem drop_splice {α : Type} (L : List α) (i : Nat) (x : α) (S : List α)
    (h : i ≤ L.length) : (L.take i ++ x :: S).drop (i + 1) = S := by
  have : L.take i ++ x :: S = (L.take i ++ [x]) ++ S := by simp
  rw [this]
  exact List.drop_left' (by rw [List.length_append, List.length_take]; simp; omega)

theorem take_insert_take {α : Type} (line x0 : List α) (b : Nat) (hb : b ≤ line.length) :
    (line.take b ++ (x0 ++ line.drop b)).take b = line.take b :=
  List.take_left' (by rw [List.length_take]; omega)

theorem drop_insert_drop {α : Type} (line x0 : List α) (b : Nat) (hb : b ≤ line.length) :
    (line.take b ++ (x0 ++ line.drop b)).drop (b + x0.length) = line.drop b := by
  rw [← List.append_assoc]
  exact List.drop_left' (by rw [List.length_append, List.length_take]; omega)

theorem getD_take_append {α : Type} (L : List α) (i : Nat) (x : α) (R : List α)
    (d : α) (h : i ≤ L.length) : (L.take i ++ x :: R).getD i d = x := by
  have hP : (L.take i).length = i := by rw [List.length_take]; omega
  calc (L.take i ++ x :: R).getD i d
      = (L.take i ++ x :: R).getD (L.take i).length d := by rw [hP]
    _ = x := getD_append_length _ _ _ _

theorem getD_mid {α : Type} (P : List α) (y : α) (M : List α) (x : α) (S : List α)
    (d : α) (n : Nat) (hn : n = P.length + 1 + M.length) :
    (P ++ y :: (M ++ x :: S)).getD n d = x := by
  have heq : P ++ y :: (M ++ x :: S) = (P ++ y :: M) ++ x :: S := by simp
  rw [heq]
  have hQ : (P ++ y :: M).length = n := by simp; omega
  calc ((P ++ y :: M) ++ x :: S).getD n d
      = ((P ++ y :: M) ++ x :: S).getD (P ++ y :: M).length d := by rw [hQ]
    _ = x := getD_append_length _ _ _ _

theorem drop_mid {α : Type} (P : List α) (y : α) (M : List α) (x : α) (S : List α)
    (n : Nat) (hn : n = P.length + 1 + M.length + 1) :
    (P ++ y :: (M ++ x :: S)).drop n = S := by
  have heq : P ++ y :: (M ++ x :: S) = (P ++ (y :: M ++ [x])) ++ S := by simp
  rw [heq]
  exact List.drop_left' (by simp; omega)

theorem appendToLast_cons_ne (a : BufLine) (xs : List BufLine) (suf : BufLine)
    (h : xs ≠ []) :
    appendToLast (a :: xs) suf = a :: (xs.dropLast ++ [xs.getLastD [] ++ suf]) := by
  cases xs with
  | nil => exact absurd rfl h
  | cons b xs' =>
    show a :: appendToLast (b :: xs') suf = _
    rw [appendToLast_eq (b :: xs') suf (by simp)]

/-- Applying a change and then its inverse restores the buffer
(`text.rs`: `Change::invert` against `Text::apply_change`). -/
theorem applyChange_invert (t : Text) (c : Change) (h : ChangeValid t c) :
    (t.applyChange c).applyChange (c.invert t) = t := by
  obtain ⟨L⟩ := t
  match c with
  | .insert p x =>
    obtain ⟨hx, hline, hbyte⟩ := h
    obtain ⟨i, b⟩ := p
    simp only [lineAt] at hbyte
    simp only at hline hbyte
    match hxl : x.lines with
    | [] => exact absurd hxl hx
    | x0 :: xs =>
      by_cases hlc : x.lengthT.line_count = 0
      · -- single-line insertion: x.lines = [x0]
        have hxs : xs = [] := by
          unfold Text.lengthT at hlc
          rw [hxl] at hlc
          simpa using hlc
        subst hxs
        have hxlen : x.lengthT = ⟨0, x0.length⟩ := by
          unfold Text.lengthT
          rw [hxl]
          rfl
        have hhead : x.lines.headD [] = x0 := by rw [hxl]; rfl
        simp only [Text.applyChange, Change.invert, hxlen]
        simp only [Text.insertT, if_pos hlc, hhead, Text.deleteT]
        simp only [Position.addL, lineAt, eq_self_iff_true, ite_true]
        simp only [List.append_assoc, List.singleton_append]
        rw [getD_splice L i _ [] hline]
        rw [take_insert_take _ _ _ hbyte, drop_insert_drop _ _ _ hbyte]
        rw [take_splice _ _ _ _ hline.le, drop_splice _ _ _ _ hline.le]
        rw [List.take_append_drop b (L.getD i [])]
        rw [Text.mk.injEq]
        exact take_getD_drop L i hline []
      · -- multi-line insertion: x.lines = x0 :: xs with xs nonempty
        have hxsne : xs ≠ [] := by
          intro hc
          subst hc
          unfold Text.lengthT at hlc
          rw [hxl] at hlc
          simp at hlc
        have hxs1 : 0 < xs.length := List.length_pos.mpr hxsne
        have hxlen : x.lengthT = ⟨xs.length, (xs.getLastD []).length⟩ := by
          unfold Text.lengthT
          rw [hxl]
          simp only [List.length_cons, Nat.add_sub_cancel, Length.mk.injEq, true_and]
          rw [List.getLastD_cons [] x0 xs, getLastD_irrel xs hxsne x0 []]
        have hP : (L.take i).length = i := by rw [List.length_take]; omega
        have hB : ((L.getD i []).take b).length = b := by rw [List.length_take]; omega
        simp only [Text.applyChange, Change.invert]
        simp only [Text.insertT, Text.deleteT, Position.addL, lineAt, if_neg hlc]
        simp only [hxl, List.modifyHead_cons]
        rw [appendToLast_cons_ne _ _ _ hxsne]
        simp only [hxlen]
        simp only [List.append_assoc, List.singleton_append, List.cons_append]
        rw [getD_take_append L i _ _ [] hline.le]
        rw [List.take_left' hB]
        rw [getD_mid (L.take i) _ xs.dropLast _ _ [] (i + xs.length)
          (by rw [hP, List.length_dropLast]; omega)]
        rw [List.drop_left' rfl]
        rw [List.take_append_drop]
        rw [List.take_left' hP]
        rw [drop_mid (L.take i) _ xs.dropLast _ _ (i + xs.length + 1)
          (by rw [hP, List.length_dropLast]; omega)]
        rw [Text.mk.injEq]
        exact take_getD_drop L i hline []
  | .delete s l =>
    obtain ⟨i, b⟩ := s
    obtain ⟨lc, bc⟩ := l
    by_cases hlc : lc = 0
    · -- single-line deletion
      subst hlc
      simp only [ChangeValid, Position.addL, lineAt, eq_self_iff_true, ite_true] at h
      obtain ⟨hline, hsb, heb⟩ := h
      have hP : (L.take i).length = i := by rw [List.length_take]; omega
      have hB : ((L.getD i []).take b).length = b := by rw [List.length_take]; omega
      simp only [Text.applyChange, Change.invert, Text.slice, Text.deleteT, Text.insertT,
        Text.lengthT, Position.addL, lineAt, eq_self_iff_true, ite_true,
        List.length_cons, List.length_nil, Nat.add_sub_cancel, List.headD_cons]
      simp only [List.append_assoc, List.singleton_append, List.cons_append]
      rw [getD_take_append L i _ _ [] hline.le]
      rw [List.take_left' hB]
      rw [List.drop_left' hB]
      rw [show (L.getD i []).drop (b + bc) = ((L.getD i []).drop b).drop bc from
        ((L.getD i []).drop_drop bc b).symm]
      rw [List.take_append_drop bc]
      rw [List.take_append_drop b]
      rw [List.take_left' hP]
      rw [drop_splice L i _ _ hline.le]
      rw [Text.mk.injEq]
      exact take_getD_drop L i hline []
    · -- multi-line deletion
      simp only [ChangeValid, Position.addL, lineAt, if_neg hlc] at h
      obtain ⟨heline, hsb, heb⟩ := h
      have hlc1 : 0 < lc := Nat.pos_of_ne_zero hlc
      have hP : (L.take i).length = i := by rw [List.length_take]; omega
      have hB : ((L.getD i []).take b).length = b := by rw [List.length_take]; omega
      simp only [Text.applyChange, Change.invert, Text.slice, Text.deleteT, Text.insertT,
        Text.lengthT, Position.addL, lineAt, if_neg hlc, List.length_cons,
        List.length_append, List.length_nil, Nat.add_sub_cancel, Nat.succ_ne_zero,
        ite_false]
      simp only [List.cons_append, List.append_assoc, List.singleton_append,
        List.modifyHead_cons]
      rw [appendToLast_cons_ne _ _ _ (by simp)]
      rw [List.dropLast_concat, List.getLastD_concat]
      simp only [List.cons_append, List.append_assoc, List.singleton_append]
      rw [getD_take_append L i _ _ [] (by omega)]
      rw [List.take_left' hB]
      rw [List.drop_left' hB]
      rw [List.take_append_drop b]
      rw [List.take_append_drop bc]
      rw [List.take_left' hP]
      rw [drop_splice L i _ _ (by omega)]
      have hsuffix : (L.drop (i + 1)).take (i + lc - (i + 1)) ++
          (L.getD (i + lc) []) :: L.drop (i + lc + 1) = L.drop (i + 1) := by
        have h1 : (L.drop (i + 1)).drop (i + lc - (i + 1)) = L.drop (i + lc) := by
          rw [List.drop_drop]
          congr 1
          omega
        have h2 : L.drop (i + lc) = L.getD (i + lc) [] :: L.drop (i + lc + 1) :=
          drop_eq_getD_cons L (i + lc) heline []
        calc (L.drop (i + 1)).take (i + lc - (i + 1)) ++
            (L.getD (i + lc) []) :: L.drop (i + lc + 1)
            = (L.drop (i + 1)).take (i + lc - (i + 1)) ++
              (L.drop (i + 1)).drop (i + lc - (i + 1)) := by rw [h1, ← h2]
          _ = L.drop (i + 1) := List.take_append_drop _ _
      simp only [List.nil_append]
      rw [hsuffix]
      rw [Text.mk.injEq]
      exact take_getD_drop L i (by omega) []

/-- Apply a list of changes left to right. -/
def applyAll (t : Text) (cs : List Change) : Text :=
  cs.foldl Text.applyChange t

@[simp] theorem applyAll_nil (t : Text) : applyAll t [] = t := rfl

@[simp] theorem applyAll_cons (t : Text) (c : Change) (cs : List Change) :
    applyAll t (c :: cs) = applyAll (t.applyChange c) cs := rfl

theorem applyAll_append (t : Text) (l1 l2 : List Change) :
    applyAll t (l1 ++ l2) = applyAll (applyAll t l1) l2 :=
  List.foldl_append _ _ _ _

/-- The inverses of a chain of changes, each computed against the
buffer at the moment its change is applied — this is the order in
which `Edit::apply_change` pushes inverses onto the undo stack. -/
def invChain (t : Text) : List Change → List Change
  | [] => []
  | c :: cs => c.invert t :: invChain (t.applyChange c) cs

@[simp] theorem invChain_nil (t : Text) : invChain t [] = [] := rfl

@[simp] theorem invChain_cons (t : Text) (c : Change) (cs : List Change) :
    invChain t (c :: cs) = c.invert t :: invChain (t.applyChange c) cs := rfl

theorem invChain_length (t : Text) (cs : List Change) :
    (invChain t cs).length = cs.length := by
  induction cs generalizing t with
  | nil => rfl
  | cons c cs ih => simp [ih]

theorem invChain_append (t : Text) (l1 l2 : List Change) :
    invChain t (l1 ++ l2) = invChain t l1 ++ invChain (applyAll t l1) l2 := by
  induction l1 generalizing t with
  | nil => rfl
  | cons c l1 ih => simp [ih]

/-- Validity of a chain of changes, each against the buffer it is
applied to. -/
def ValidChain (t : Text) : List Change → Prop
  | [] => True
  | c :: cs => ChangeValid t c ∧ ValidChain (t.applyChange c) cs

instance instValidChainDec : ∀ (cs : List Change) (t : Text),
    Decidable (ValidChain t cs)
  | [], _ => isTrue trivial
  | c :: cs, t =>
    @instDecidableAnd _ _ inferInstance (instValidChainDec cs (t.applyChange c))

theorem ValidChain_append (t : Text) (l1 l2 : List Change) :
    ValidChain t (l1 ++ l2) ↔ ValidChain t l1 ∧ ValidChain (applyAll t l1) l2 := by
  induction l1 generalizing t with
  | nil => simp [ValidChain]
  | cons c l1 ih =>
    show (ChangeValid t c ∧ ValidChain (t.applyChange c) (l1 ++ l2)) ↔
      ((ChangeValid t c ∧ ValidChain (t.applyChange c) l1) ∧
        ValidChain (applyAll (t.applyChange c) l1) l2)
    rw [ih]
    exact and_assoc.symm

/-- The inverse chain, applied in reverse, undoes the whole chain —
the heart of claims C1 and C2. -/
theorem applyAll_invChain (t : Text) (cs : List Change) (h : ValidChain t cs) :
    applyAll (applyAll t cs) (invChain t cs).reverse = t := by
  induction cs generalizing t with
  | nil => rfl
  | cons c cs ih =>
    obtain ⟨hc, hcs⟩ := h
    simp only [applyAll_cons, invChain_cons, List.reverse_cons]
    rw [applyAll_append]
    rw [ih _ hcs]
    simpa using applyChange_invert t c hc

/-- Unfolding the per-change fold of an edit scope: the text evolves by
`applyAll`, the undo stack accumulates the inverse chain, and nothing
else moves. -/
theorem foldl_applyEditChange (h : History) (cs : List Change) :
    cs.foldl History.applyEditChange h =
      { text := applyAll h.text cs,
        prev_edit := h.prev_edit,
        undo_stack := ⟨h.undo_stack.entries, h.undo_stack.changes ++ invChain h.text cs⟩,
        redo_stack := h.redo_stack } := by
  induction cs generalizing h with
  | nil => simp
  | cons c cs ih =>
    rw [List.foldl_cons, ih]
    simp [History.applyEditChange, EditStack.pushChange]

/-- Unfolding the per-change fold inside `History::undo`/`redo`. -/
theorem foldl_undoStep (t : Text) (st : EditStack) (cs : List Change) :
    cs.foldl (fun acc c => (acc.1.applyChange c, acc.2.pushChange (c.invert acc.1)))
      ((t, st) : Text × EditStack) =
      (applyAll t cs, ⟨st.entries, st.changes ++ invChain t cs⟩) := by
  induction cs generalizing t st with
  | nil => simp
  | cons c cs ih =>
    rw [List.foldl_cons, ih]
    simp [EditStack.pushChange]

/-- An undo group as recorded by `History::edit`: the selection
captured when it was opened plus the changes coalesced into it. -/
structure UndoGroup where
  selection : Selection
  changes : List Change
deriving DecidableEq

/-- All changes of a list of groups, oldest first. -/
def flatChanges (gs : List UndoGroup) : List Change :=
  (gs.map UndoGroup.changes).flatten

@[simp] theorem flatChanges_nil : flatChanges [] = [] := rfl

@[simp] theorem flatChanges_cons (g : UndoGroup) (gs : List UndoGroup) :
    flatChanges (g :: gs) = g.changes ++ flatChanges gs := rfl

theorem flatChanges_append (gs1 gs2 : List UndoGroup) :
    flatChanges (gs1 ++ gs2) = flatChanges gs1 ++ flatChanges gs2 := by
  simp [flatChanges]

/-- The stack entries encoding a list of groups, the first opening at
change offset `n`. -/
def entriesFrom (n : Nat) : List UndoGroup → List EditStackEntry
  | [] => []
  | g :: gs => ⟨g.selection, n⟩ :: entriesFrom (n + g.changes.length) gs

theorem entriesFrom_length (n : Nat) (gs : List UndoGroup) :
    (entriesFrom n gs).length = gs.length := by
  induction gs generalizing n with
  | nil => rfl
  | cons g gs ih => simp [entriesFrom, ih]

theorem entriesFrom_append (n : Nat) (gs1 gs2 : List UndoGroup) :
    entriesFrom n (gs1 ++ gs2) =
      entriesFrom n gs1 ++ entriesFrom (n + (flatChanges gs1).length) gs2 := by
  induction gs1 generalizing n with
  | nil => simp [entriesFrom]
  | cons g gs1 ih =>
    simp only [List.cons_append, entriesFrom, List.append_eq]
    rw [ih]
    simp only [flatChanges_cons, List.length_append]
    rw [Nat.add_assoc]

/-- The invariant tying a `History` to the base text `T` it evolved
from and the undo groups `gs` recorded since: the buffer is `T` with
all group changes applied, the undo stack holds one entry per group at
the right change offset, its change log is the inverse chain of all
group changes, and all those changes were in bounds when applied. -/
def HistInv (T : Text) (gs : List UndoGroup) (h : History) : Prop :=
  h.text = applyAll T (flatChanges gs) ∧
  h.undo_stack.entries = entriesFrom 0 gs ∧
  h.undo_stack.changes = invChain T (flatChanges gs) ∧
  ValidChain T (flatChanges gs)

theorem histInv_fresh (T : Text) : HistInv T [] (History.fromText T) :=
  ⟨rfl, rfl, rfl, trivial⟩

/-- `History::undo` pops exactly the last recorded group: the buffer
returns to its state before that group, the stack drops to the earlier
groups, and the group's stored selection is returned. -/
theorem undo_pops_group (T : Text) (gs : List UndoGroup) (g : UndoGroup) (h : History)
    (hinv : HistInv T (gs ++ [g]) h) (sel : Selection) :
    HistInv T gs (h.undo sel []).1 ∧
    (h.undo sel []).2.2 = some g.selection ∧
    (h.undo sel []).1.text = applyAll T (flatChanges gs) := by
  obtain ⟨htext, hentries, hchanges, hvalid⟩ := hinv
  rw [flatChanges_append] at htext hchanges hvalid
  simp only [flatChanges_cons, flatChanges_nil, List.append_nil] at htext hchanges hvalid
  rw [entriesFrom_append] at hentries
  simp only [entriesFrom, Nat.zero_add, List.append_nil] at hentries
  rw [invChain_append] at hchanges
  have hvsplit := (ValidChain_append T (flatChanges gs) g.changes).mp hvalid
  have hstep : h.undo sel [] =
      ({ text := applyAll h.text ((invChain (applyAll T (flatChanges gs)) g.changes).reverse),
         prev_edit := h.prev_edit,
         undo_stack := ⟨entriesFrom 0 gs, invChain T (flatChanges gs)⟩,
         redo_stack := ⟨h.redo_stack.entries ++ [⟨sel, h.redo_stack.changes.length⟩],
           h.redo_stack.changes ++
             invChain h.text ((invChain (applyAll T (flatChanges gs)) g.changes).reverse)⟩ },
       (invChain (applyAll T (flatChanges gs)) g.changes).reverse,
       some g.selection) := by
    unfold History.undo EditStack.popUntilSelection
    rw [hentries, List.getLast?_concat]
    simp only [Option.some.injEq]
    rw [List.dropLast_concat]
    rw [hchanges]
    rw [List.drop_left' (invChain_length T (flatChanges gs))]
    rw [List.take_left' (invChain_length T (flatChanges gs))]
    simp only [List.nil_append]
    rw [foldl_undoStep]
    simp [EditStack.pushSelection]
  rw [hstep]
  have htext2 : applyAll h.text
      ((invChain (applyAll T (flatChanges gs)) g.changes).reverse) =
      applyAll T (flatChanges gs) := by
    rw [htext, applyAll_append]
    exact applyAll_invChain (applyAll T (flatChanges gs)) g.changes hvsplit.2
  refine ⟨⟨htext2, rfl, rfl, hvsplit.1⟩, rfl, htext2⟩

/-- Append changes to the most recent group (the coalescing path of
`History::edit`). -/
def appendToLastGroup (gs : List UndoGroup) (cs : List Change) : List UndoGroup :=
  match gs with
  | [] => []
  | [g] => [⟨g.selection, g.changes ++ cs⟩]
  | g :: g2 :: rest => g :: appendToLastGroup (g2 :: rest) cs

theorem appendToLastGroup_ne_nil (g : UndoGroup) (gs : List UndoGroup)
    (cs : List Change) : appendToLastGroup (g :: gs) cs ≠ [] := by
  cases gs <;> simp [appendToLastGroup]

theorem flatChanges_appendToLastGroup (gs : List UndoGroup) (cs : List Change)
    (h : gs ≠ []) : flatChanges (appendToLastGroup gs cs) = flatChanges gs ++ cs := by
  induction gs with
  | nil => exact absurd rfl h
  | cons g gs ih =>
    cases gs with
    | nil => simp [appendToLastGroup]
    | cons g2 rest =>
      show flatChanges (g :: appendToLastGroup (g2 :: rest) cs) = _
      rw [flatChanges_cons, ih (by simp), flatChanges_cons]
      simp

theorem entriesFrom_appendToLastGroup (n : Nat) (gs : List UndoGroup)
    (cs : List Change) (h : gs ≠ []) :
    entriesFrom n (appendToLastGroup gs cs) = entriesFrom n gs := by
  induction gs generalizing n with
  | nil => exact absurd rfl h
  | cons g gs ih =>
    cases gs with
    | nil => simp [appendToLastGroup, entriesFrom]
    | cons g2 rest =>
      show entriesFrom n (g :: appendToLastGroup (g2 :: rest) cs) = _
      simp only [entriesFrom]
      rw [ih _ (by simp)]
      rfl

theorem headD_appendToLastGroup (g : UndoGroup) (gs : List UndoGroup)
    (cs : List Change) (d : UndoGroup) :
    ((appendToLastGroup (g :: gs) cs).headD d).selection = g.selection := by
  cases gs <;> simp [appendToLastGroup]

/-- `History::edit` scope, non-coalescing path: a new group is pushed,
anchored at the scope's selection. -/
theorem runScope_new (T : Text) (gs : List UndoGroup) (h : History)
    (session : SessionId) (kind : EditKind) (sel : Selection) (cs : List Change)
    (hinv : HistInv T gs h)
    (hmatch : h.prevMatches session kind = false)
    (hv : ValidChain h.text cs) :
    HistInv T (gs ++ [⟨sel, cs⟩]) (h.runScope session kind sel cs) ∧
    (h.runScope session kind sel cs).prev_edit = some (session, kind) := by
  obtain ⟨htext, hentries, hchanges, hvalid⟩ := hinv
  have hstep : h.runScope session kind sel cs =
      { text := applyAll h.text cs,
        prev_edit := some (session, kind),
        undo_stack := ⟨h.undo_stack.entries ++ [⟨sel, h.undo_stack.changes.length⟩],
          h.undo_stack.changes ++ invChain h.text cs⟩,
        redo_stack := EditStack.clearS } := by
    unfold History.runScope History.editOpen
    rw [hmatch]
    simp only [Bool.false_eq_true, if_false]
    rw [foldl_applyEditChange]
    rfl
  rw [hstep]
  rw [htext] at hv ⊢
  refine ⟨⟨?_, ?_, ?_, ?_⟩, rfl⟩
  · simp only [flatChanges_append, flatChanges_cons, flatChanges_nil,
      List.append_nil, applyAll_append]
  · simp only [hentries, hchanges, entriesFrom_append, entriesFrom, Nat.zero_add,
      invChain_length, flatChanges_append, flatChanges_cons, flatChanges_nil,
      List.append_nil]
  · simp only [hchanges, flatChanges_append, flatChanges_cons, flatChanges_nil,
      List.append_nil, invChain_append]
  · simp only [flatChanges_append, flatChanges_cons, flatChanges_nil,
      List.append_nil]
    exact (ValidChain_append T _ _).mpr ⟨hvalid, hv⟩

/-- `History::edit` scope, coalescing path: the changes extend the most
recent group. -/
theorem runScope_coalesce (T : Text) (gs : List UndoGroup) (h : History)
    (session : SessionId) (kind : EditKind) (sel : Selection) (cs : List Change)
    (hinv : HistInv T gs h)
    (hmatch : h.prevMatches session kind = true)
    (hgs : gs ≠ [])
    (hv : ValidChain h.text cs) :
    HistInv T (appendToLastGroup gs cs) (h.runScope session kind sel cs) ∧
    (h.runScope session kind sel cs).prev_edit = h.prev_edit := by
  obtain ⟨htext, hentries, hchanges, hvalid⟩ := hinv
  have hstep : h.runScope session kind sel cs =
      { text := applyAll h.text cs,
        prev_edit := h.prev_edit,
        undo_stack := ⟨h.undo_stack.entries, h.undo_stack.changes ++ invChain h.text cs⟩,
        redo_stack := EditStack.clearS } := by
    unfold History.runScope History.editOpen
    rw [hmatch]
    simp only [if_true]
    rw [foldl_applyEditChange]
  rw [hstep]
  rw [htext] at hv ⊢
  refine ⟨⟨?_, ?_, ?_, ?_⟩, rfl⟩
  · simp only [flatChanges_appendToLastGroup gs cs hgs, applyAll_append]
  · simp only [hentries, entriesFrom_appendToLastGroup 0 gs cs hgs]
  · simp only [hchanges, flatChanges_appendToLastGroup gs cs hgs, invChain_append]
  · simp only [flatChanges_appendToLastGroup gs cs hgs]
    exact (ValidChain_append T _ _).mpr ⟨hvalid, hv⟩

/-- A sequence of edit scopes run against a history. -/
structure EditScope where
  session : SessionId
  kind : EditKind
  selection : Selection
  changes : List Change
deriving DecidableEq

def runScopes (h : History) (ss : List EditScope) : History :=
  ss.foldl (fun h sc => h.runScope sc.session sc.kind sc.selection sc.changes) h

/-- Validity of the changes of a sequence of scopes, each against the
buffer as it stands when the scope runs (grouping does not affect the
buffer, so the text evolution is scope-by-scope). -/
def ScopesValid (t : Text) : List EditScope → Prop
  | [] => True
  | sc :: rest => ValidChain t sc.changes ∧ ScopesValid (applyAll t sc.changes) rest

instance instScopesValidDec : ∀ (ss : List EditScope) (t : Text),
    Decidable (ScopesValid t ss)
  | [], _ => isTrue trivial
  | sc :: rest, t =>
    @instDecidableAnd _ _ inferInstance (instScopesValidDec rest (applyAll t sc.changes))

theorem headD_append_of_ne_nil {α : Type} (l1 l2 : List α) (d : α) (h : l1 ≠ []) :
    (l1 ++ l2).headD d = l1.headD d := by
  cases l1 with
  | nil => exact absurd rfl h
  | cons a l => rfl

/-- Running scopes on top of a non-empty group list preserves the
invariant, keeps the group list non-empty, and never changes the
oldest group's selection. -/
theorem runScopes_inv (T : Text) (ss : List EditScope) :
    ∀ (h : History) (gs : List UndoGroup), gs ≠ [] → HistInv T gs h →
    ScopesValid h.text ss →
    ∃ gs', HistInv T gs' (runScopes h ss) ∧ gs' ≠ [] ∧
      (gs'.headD ⟨Selection.zero, []⟩).selection =
        (gs.headD ⟨Selection.zero, []⟩).selection := by
  induction ss with
  | nil => exact fun h gs hne hinv _ => ⟨gs, hinv, hne, rfl⟩
  | cons sc rest ih =>
    intro h gs hne hinv hv
    obtain ⟨hv1, hv2⟩ := hv
    have hstep : runScopes h (sc :: rest) =
        runScopes (h.runScope sc.session sc.kind sc.selection sc.changes) rest := rfl
    rw [hstep]
    have htext' : (h.runScope sc.session sc.kind sc.selection sc.changes).text =
        applyAll h.text sc.changes := by
      unfold History.runScope
      rw [foldl_applyEditChange]
      unfold History.editOpen
      split_ifs <;> rfl
    by_cases hm : h.prevMatches sc.session sc.kind = true
    · obtain ⟨hinv', _⟩ := runScope_coalesce T gs h sc.session sc.kind sc.selection
        sc.changes hinv hm hne hv1
      obtain ⟨gs', hinv'', hne', hhead⟩ := ih _ _
        (by
          cases gs with
          | nil => exact absurd rfl hne
          | cons g gs0 => exact appendToLastGroup_ne_nil g gs0 sc.changes)
        hinv' (by rw [htext']; exact hv2)
      refine ⟨gs', hinv'', hne', ?_⟩
      rw [hhead]
      cases gs with
      | nil => exact absurd rfl hne
      | cons g gs0 =>
        rw [headD_appendToLastGroup g gs0 sc.changes]
        rfl
    · obtain ⟨hinv', _⟩ := runScope_new T gs h sc.session sc.kind sc.selection
        sc.changes hinv (Bool.not_eq_true _ |>.mp hm) hv1
      obtain ⟨gs', hinv'', hne', hhead⟩ := ih _ _ (by simp [hne])
        hinv' (by rw [htext']; exact hv2)
      refine ⟨gs', hinv'', hne', ?_⟩
      rw [hhead, headD_append_of_ne_nil gs [⟨sc.selection, sc.changes⟩] _ hne]

/-- Running a non-empty scope sequence from a fresh history records at
least one group, whose oldest selection is the first scope's. -/
theorem runScopes_fresh (T : Text) (sc : EditScope) (rest : List EditScope)
    (hv : ScopesValid T (sc :: rest)) :
    ∃ gs', HistInv T gs' (runScopes (History.fromText T) (sc :: rest)) ∧ gs' ≠ [] ∧
      (gs'.headD ⟨Selection.zero, []⟩).selection = sc.selection := by
  obtain ⟨hv1, hv2⟩ := hv
  have hm : (History.fromText T).prevMatches sc.session sc.kind = false := rfl
  obtain ⟨hinv1, _⟩ := runScope_new T [] (History.fromText T) sc.session sc.kind
    sc.selection sc.changes (histInv_fresh T) hm hv1
  have hstep : runScopes (History.fromText T) (sc :: rest) =
      runScopes ((History.fromText T).runScope sc.session sc.kind sc.selection
        sc.changes) rest := rfl
  rw [hstep]
  have htext' : ((History.fromText T).runScope sc.session sc.kind sc.selection
      sc.changes).text = applyAll T sc.changes := by
    rw [hinv1.1]
    simp
  obtain ⟨gs', hinv', hne', hhead⟩ := runScopes_inv T rest _ [⟨sc.selection, sc.changes⟩]
    (by simp) hinv1 (by rw [htext']; exact hv2)
  refine ⟨gs', hinv', hne', ?_⟩
  rw [hhead]
  rfl

/-- Call `History::undo` once per selection in `sels`, returning the
final history and the last call's returned selection. -/
def undoN : History → List Selection → History × Option Selection
  | h, [] => (h, none)
  | h, [s] => ((h.undo s []).1, (h.undo s []).2.2)
  | h, s :: s2 :: rest => undoN (h.undo s []).1 (s2 :: rest)

/-- Undoing once per recorded group walks the invariant back to the
base text, and the last undo returns the oldest group's selection. -/
theorem undoN_restores (T : Text) (sels : List Selection) :
    ∀ (gs : List UndoGroup) (h : History), HistInv T gs h → gs ≠ [] →
    sels.length = gs.length →
    (undoN h sels).1.text = T ∧
    (undoN h sels).2 = some (gs.headD ⟨Selection.zero, []⟩).selection := by
  induction sels with
  | nil =>
    intro gs h _ hne hlen
    have hgs0 : gs.length = 0 := by simpa using hlen.symm
    exact absurd (List.eq_nil_of_length_eq_zero hgs0) hne
  | cons s rest ih =>
    intro gs h hinv hne hlen
    rcases List.eq_nil_or_concat gs with hnil | ⟨init, lastg, hsplit⟩
    · exact absurd hnil hne
    · rw [List.concat_eq_append] at hsplit
      subst hsplit
      have hlen2 : (init ++ [lastg]).length = init.length + 1 := by
        rw [List.length_append]
        rfl
      have step := undo_pops_group T init lastg h hinv s
      cases rest with
      | nil =>
        have hinit : init = [] := by
          apply List.eq_nil_of_length_eq_zero
          have h1 : (s :: ([] : List Selection)).length = 1 := rfl
          omega
        subst hinit
        refine ⟨?_, ?_⟩
        · show (h.undo s []).1.text = T
          rw [step.2.2]
          rfl
        · show (h.undo s []).2.2 =
            some ((([] : List UndoGroup) ++ [lastg]).headD
              ⟨Selection.zero, []⟩).selection
          rw [step.2.1]
          rfl
      | cons s2 rest' =>
        have hinitne : init ≠ [] := by
          intro hc
          subst hc
          have h1 : (s :: s2 :: rest').length = rest'.length + 2 := rfl
          have h2 : (([] : List UndoGroup) ++ [lastg]).length = 1 := rfl
          omega
        show (undoN (h.undo s []).1 (s2 :: rest')).1.text = T ∧
          (undoN (h.undo s []).1 (s2 :: rest')).2 =
            some ((init ++ [lastg]).headD ⟨Selection.zero, []⟩).selection
        have hres := ih init (h.undo s []).1 step.1 hinitne
          (by
            have h1 : (s :: s2 :: rest').length = (s2 :: rest').length + 1 := rfl
            omega)
        refine ⟨hres.1, ?_⟩
        rw [hres.2, headD_append_of_ne_nil init [lastg] _ hinitne]

/-- C1: starting from a fresh history over text `T`, running any
non-empty sequence of `History::edit` scopes (whose changes are in
bounds as applied) and then calling `History::undo` once per recorded
undo group restores the text byte-for-byte to `T`, and the final undo
call returns the selection snapshot captured when the first scope
opened the first group. -/
theorem history_undo_round_trip (T : Text) (sc : EditScope) (rest : List EditScope)
    (sels : List Selection)
    (hv : ScopesValid T (sc :: rest))
    (hlen : sels.length =
      (runScopes (History.fromText T) (sc :: rest)).undo_stack.entries.length) :
    (undoN (runScopes (History.fromText T) (sc :: rest)) sels).1.text = T ∧
    (undoN (runScopes (History.fromText T) (sc :: rest)) sels).2 =
      some sc.selection := by
  obtain ⟨gs', hinv, hne, hhead⟩ := runScopes_fresh T sc rest hv
  have hlen' : sels.length = gs'.length := by
    rw [hlen, hinv.2.1, entriesFrom_length]
  have hres := undoN_restores T sels gs' _ hinv hne hlen'
  rw [hhead] at hres
  exact hres

/-- Witness for C1: on the empty document, one scope that inserts
`"hi"` at the origin (preceded by the zero-length delete that
`State::insert` emits); a single undo restores the empty document and
the original selection. -/
theorem history_undo_round_trip_w :
    (undoN (runScopes (History.fromText ⟨[[]]⟩)
      [⟨0, .insert, Selection.zero,
        [.delete ⟨0, 0⟩ ⟨0, 0⟩, .insert ⟨0, 0⟩ ⟨[['h', 'i']]⟩]⟩])
      [Selection.zero]).1.text = ⟨[[]]⟩ ∧
    (undoN (runScopes (History.fromText ⟨[[]]⟩)
      [⟨0, .insert, Selection.zero,
        [.delete ⟨0, 0⟩ ⟨0, 0⟩, .insert ⟨0, 0⟩ ⟨[['h', 'i']]⟩]⟩])
      [Selection.zero]).2 = some Selection.zero :=
  history_undo_round_trip ⟨[[]]⟩
    ⟨0, .insert, Selection.zero,
      [.delete ⟨0, 0⟩ ⟨0, 0⟩, .insert ⟨0, 0⟩ ⟨[['h', 'i']]⟩]⟩ [] [Selection.zero]
    (by decide) (by decide)

/-- The changes `History::undo` will drain from the undo stack: the
most recent group's stored inverse changes, newest first. -/
def undoDrained (h : History) : List Change :=
  ((h.undo_stack.changes).drop
    ((h.undo_stack.entries.getLastD ⟨Selection.zero, 0⟩).changes_start)).reverse

/-- `History::redo` on a history whose redo stack ends with the group
that an undo just pushed: it reapplies the undone changes and returns
the pushed selection. -/
theorem redo_after_undo_state (t0 : Text) (D : List Change) (pe : Option (SessionId × EditKind))
    (us : EditStack) (re : List EditStackEntry) (rc : List Change) (sel sel2 : Selection)
    (hv : ValidChain t0 D) :
    (History.redo
      { text := applyAll t0 D, prev_edit := pe, undo_stack := us,
        redo_stack := ⟨re ++ [⟨sel, rc.length⟩], rc ++ invChain t0 D⟩ } sel2 []).2.2 =
      some sel ∧
    (History.redo
      { text := applyAll t0 D, prev_edit := pe, undo_stack := us,
        redo_stack := ⟨re ++ [⟨sel, rc.length⟩], rc ++ invChain t0 D⟩ } sel2 []).1.text =
      t0 := by
  unfold History.redo EditStack.popUntilSelection
  rw [List.getLast?_concat]
  simp only [List.nil_append]
  rw [List.drop_left' rfl]
  rw [foldl_undoStep]
  constructor
  · trivial
  · exact applyAll_invChain t0 D hv

/-- C2: on any history with at least one recorded undo group whose
drained changes are in bounds, `undo(); redo();` reproduces the
pre-undo text exactly, and `redo` returns exactly the selection that
was current when `undo` was invoked. -/
theorem undo_redo_identity (h : History) (sel sel2 : Selection)
    (hne : h.undo_stack.entries ≠ [])
    (hv : ValidChain h.text (undoDrained h)) :
    ((h.undo sel []).1.redo sel2 []).2.2 = some sel ∧
    ((h.undo sel []).1.redo sel2 []).1.text = h.text := by
  rcases List.eq_nil_or_concat h.undo_stack.entries with hnil | ⟨es, e, hsplit⟩
  · exact absurd hnil hne
  rw [List.concat_eq_append] at hsplit
  have hgetLast : h.undo_stack.entries.getLast? = some e := by
    rw [hsplit]
    exact List.getLast?_concat _
  have hdrained : undoDrained h = ((h.undo_stack.changes).drop e.changes_start).reverse := by
    unfold undoDrained
    rw [hsplit, List.getLastD_concat]
  rw [hdrained] at hv
  have hstep1 : h.undo sel [] =
      ({ text := applyAll h.text (((h.undo_stack.changes).drop e.changes_start).reverse),
         prev_edit := h.prev_edit,
         undo_stack := ⟨h.undo_stack.entries.dropLast,
           h.undo_stack.changes.take e.changes_start⟩,
         redo_stack := ⟨h.redo_stack.entries ++ [⟨sel, h.redo_stack.changes.length⟩],
           h.redo_stack.changes ++
             invChain h.text (((h.undo_stack.changes).drop e.changes_start).reverse)⟩ },
       ((h.undo_stack.changes).drop e.changes_start).reverse,
       some e.selection) := by
    unfold History.undo EditStack.popUntilSelection
    rw [hgetLast]
    simp only [List.nil_append]
    rw [foldl_undoStep]
    simp [EditStack.pushSelection]
  rw [hstep1]
  exact redo_after_undo_state h.text _ h.prev_edit _ _ _ sel sel2 hv

/-- Witness for C2: a history over `"hi"` whose single undo group
stores the inverse `Delete (0,0) (0,2)` (the inverse of having
inserted `"hi"`); undo empties the buffer, redo restores `"hi"` and
the selection passed to undo. -/
theorem undo_redo_identity_w :
    (((⟨⟨[['h', 'i']]⟩, none,
        ⟨[⟨Selection.zero, 0⟩], [.delete ⟨0, 0⟩ ⟨0, 2⟩]⟩,
        ⟨[], []⟩⟩ : History).undo Selection.zero []).1.redo Selection.zero []).2.2 =
      some Selection.zero ∧
    (((⟨⟨[['h', 'i']]⟩, none,
        ⟨[⟨Selection.zero, 0⟩], [.delete ⟨0, 0⟩ ⟨0, 2⟩]⟩,
        ⟨[], []⟩⟩ : History).undo Selection.zero []).1.redo Selection.zero []).1.text =
      (⟨⟨[['h', 'i']]⟩, none,
        ⟨[⟨Selection.zero, 0⟩], [.delete ⟨0, 0⟩ ⟨0, 2⟩]⟩,
        ⟨[], []⟩⟩ : History).text :=
  undo_redo_identity
    ⟨⟨[['h', 'i']]⟩, none, ⟨[⟨Selection.zero, 0⟩], [.delete ⟨0, 0⟩ ⟨0, 2⟩]⟩, ⟨[], []⟩⟩
    Selection.zero Selection.zero (by decide) (by decide)

/-- `state.rs`: the changes `State::insert` emits: for every selection
region, in order, delete the region's span and insert the text at its
start (the regions are iterated from the pre-edit selection). -/
def insertChanges (sel : Selection) (x : Text) : List Change :=
  (sel.regions.map
    (fun r => [Change.delete r.start r.lengthR, Change.insert r.start x])).flatten

/-- `state.rs`: `State::insert`: one `History::edit` scope of kind
`Insert` applying `insertChanges`. -/
def stateInsert (h : History) (session : SessionId) (sel : Selection) (x : Text) :
    History :=
  h.runScope session .insert sel (insertChanges sel x)

theorem runScope_entries_new (h : History) (sess : SessionId) (k : EditKind)
    (sel : Selection) (cs : List Change) (hm : h.prevMatches sess k = false) :
    (h.runScope sess k sel cs).undo_stack.entries.length =
      h.undo_stack.entries.length + 1 := by
  unfold History.runScope History.editOpen
  rw [hm]
  simp only [Bool.false_eq_true, if_false]
  rw [foldl_applyEditChange]
  simp [EditStack.pushSelection]

theorem runScope_entries_coalesce (h : History) (sess : SessionId) (k : EditKind)
    (sel : Selection) (cs : List Change) (hm : h.prevMatches sess k = true) :
    (h.runScope sess k sel cs).undo_stack.entries.length =
      h.undo_stack.entries.length := by
  unfold History.runScope History.editOpen
  rw [hm]
  simp only [if_true]
  rw [foldl_applyEditChange]

theorem prevMatches_same (h : History) (sess : SessionId) (k : EditKind)
    (hp : h.prev_edit = some (sess, k)) : h.prevMatches sess k = true := by
  unfold History.prevMatches
  rw [hp]
  simp [EditKind.groupsWith]

theorem prevMatches_other_session (h : History) (sess sess' : SessionId) (k k' : EditKind)
    (hp : h.prev_edit = some (sess, k)) (hne : sess' ≠ sess) :
    h.prevMatches sess' k' = false := by
  unfold History.prevMatches
  rw [hp]
  simp [EditKind.groupsWith]
  intro hc
  exact absurd hc.symm hne

/-- The history state reached by a first `State::insert` on a fresh
history (used to state the grouping claim's intermediate state). -/
def afterFirstInsert (T : Text) (s : SessionId) (sel1 : Selection) (x1 : Text) :
    History :=
  ⟨applyAll T (insertChanges sel1 x1), some (s, .insert),
    ⟨[⟨sel1, 0⟩], invChain T (insertChanges sel1 x1)⟩, EditStack.clearS⟩

/-- The fully evaluated result of the first `State::insert` on a fresh
history. -/
theorem stateInsert_fresh (T : Text) (s : SessionId) (sel1 : Selection) (x1 : Text) :
    stateInsert (History.fromText T) s sel1 x1 = afterFirstInsert T s sel1 x1 := by
  unfold stateInsert History.runScope History.editOpen
  have hm : (History.fromText T).prevMatches s EditKind.insert = false := rfl
  rw [hm]
  simp only [Bool.false_eq_true, if_false]
  rw [foldl_applyEditChange]
  rfl

/-- C5: two consecutive `State::insert` calls by the same session, with
no intervening selection-only operation and no other session's edit,
coalesce into the single undo group opened by the first call (the
entry count does not grow, and — when the combined change chain is in
bounds — a single `History::undo` restores the original text); an
intervening `force_new_undo_group` (which every selection-only
operation triggers) or a second insert by a *different* session makes
the next insert open a separate undo group (the entry count grows by
one). -/
theorem insert_undo_grouping (T : Text) (s s' : SessionId) (sel1 sel2 sel3 : Selection)
    (x1 x2 : Text) :
    ((stateInsert (stateInsert (History.fromText T) s sel1 x1)
        s sel2 x2).undo_stack.entries.length =
      (stateInsert (History.fromText T) s sel1 x1).undo_stack.entries.length ∧
     (ValidChain T (insertChanges sel1 x1 ++ insertChanges sel2 x2) →
       ((stateInsert (stateInsert (History.fromText T) s sel1 x1)
          s sel2 x2).undo sel3 []).1.text = T)) ∧
    (stateInsert (stateInsert (History.fromText T) s sel1 x1).forceNewUndoGroup
        s sel2 x2).undo_stack.entries.length =
      (stateInsert (History.fromText T) s sel1 x1).undo_stack.entries.length + 1 ∧
    (s' ≠ s →
      (stateInsert (stateInsert (History.fromText T) s sel1 x1)
          s' sel2 x2).undo_stack.entries.length =
        (stateInsert (History.fromText T) s sel1 x1).undo_stack.entries.length + 1) := by
  rw [stateInsert_fresh T s sel1 x1]
  have hp1 : (afterFirstInsert T s sel1 x1).prev_edit = some (s, .insert) := rfl
  refine ⟨⟨?_, ?_⟩, ?_, ?_⟩
  · exact runScope_entries_coalesce _ s .insert sel2 (insertChanges sel2 x2)
      (prevMatches_same _ s .insert hp1)
  · intro hv
    have hstep : stateInsert (afterFirstInsert T s sel1 x1) s sel2 x2 =
        ⟨applyAll (applyAll T (insertChanges sel1 x1)) (insertChanges sel2 x2),
          some (s, .insert),
          ⟨[⟨sel1, 0⟩],
            invChain T (insertChanges sel1 x1) ++
              invChain (applyAll T (insertChanges sel1 x1)) (insertChanges sel2 x2)⟩,
          EditStack.clearS⟩ := by
      unfold stateInsert History.runScope History.editOpen
      rw [prevMatches_same _ s .insert hp1]
      simp only [if_true]
      rw [foldl_applyEditChange]
      rfl
    have hinv : HistInv T [⟨sel1, insertChanges sel1 x1 ++ insertChanges sel2 x2⟩]
        (stateInsert (afterFirstInsert T s sel1 x1) s sel2 x2) := by
      rw [hstep]
      refine ⟨?_, rfl, ?_, ?_⟩
      · simp [applyAll_append]
      · simp [invChain_append]
      · simpa using hv
    have hres := undo_pops_group T []
      ⟨sel1, insertChanges sel1 x1 ++ insertChanges sel2 x2⟩ _ hinv sel3
    rw [hres.2.2]
    rfl
  · have hpf : ((afterFirstInsert T s sel1 x1).forceNewUndoGroup).prevMatches
        s EditKind.insert = false := rfl
    rw [stateInsert]
    rw [runScope_entries_new _ s .insert sel2 (insertChanges sel2 x2) hpf]
    rfl
  · intro hss
    rw [stateInsert]
    rw [runScope_entries_new _ s' .insert sel2 (insertChanges sel2 x2)
      (prevMatches_other_session _ s s' .insert .insert hp1 hss)]

/-- Witness for C5 at concrete inputs: session 0 inserting `"a"` then
`"b"` into the empty document coalesces (entry counts stay equal, one
undo restores the empty document); after `force_new_undo_group`, or
when session 1 does the second insert, the entry count grows by one. -/
theorem insert_undo_grouping_w :
    (stateInsert (stateInsert (History.fromText ⟨[[]]⟩) 0 Selection.zero ⟨[['a']]⟩)
        0 Selection.zero ⟨[['b']]⟩).undo_stack.entries.length =
      (stateInsert (History.fromText ⟨[[]]⟩) 0 Selection.zero
        ⟨[['a']]⟩).undo_stack.entries.length ∧
    ((stateInsert (stateInsert (History.fromText ⟨[[]]⟩) 0 Selection.zero ⟨[['a']]⟩)
        0 Selection.zero ⟨[['b']]⟩).undo Selection.zero []).1.text = ⟨[[]]⟩ ∧
    (stateInsert (stateInsert (History.fromText ⟨[[]]⟩) 0 Selection.zero
        ⟨[['a']]⟩).forceNewUndoGroup 0 Selection.zero
        ⟨[['b']]⟩).undo_stack.entries.length =
      (stateInsert (History.fromText ⟨[[]]⟩) 0 Selection.zero
        ⟨[['a']]⟩).undo_stack.entries.length + 1 ∧
    (stateInsert (stateInsert (History.fromText ⟨[[]]⟩) 0 Selection.zero ⟨[['a']]⟩)
        1 Selection.zero ⟨[['b']]⟩).undo_stack.entries.length =
      (stateInsert (History.fromText ⟨[[]]⟩) 0 Selection.zero
        ⟨[['a']]⟩).undo_stack.entries.length + 1 :=
  ⟨(insert_undo_grouping ⟨[[]]⟩ 0 1 Selection.zero Selection.zero Selection.zero
      ⟨[['a']]⟩ ⟨[['b']]⟩).1.1,
   (insert_undo_grouping ⟨[[]]⟩ 0 1 Selection.zero Selection.zero Selection.zero
      ⟨[['a']]⟩ ⟨[['b']]⟩).1.2 (by decide),
   (insert_undo_grouping ⟨[[]]⟩ 0 1 Selection.zero Selection.zero Selection.zero
      ⟨[['a']]⟩ ⟨[['b']]⟩).2.1,
   (insert_undo_grouping ⟨[[]]⟩ 0 1 Selection.zero Selection.zero Selection.zero
      ⟨[['a']]⟩ ⟨[['b']]⟩).2.2 (by decide)⟩

/-- Modelled from the spec: `str.rs` (`StrExt`) is not among the
embedded sources; the spec lists "leading-whitespace extraction and
per-character/per-string display-column-width computation" as external
pure functions.  Whitespace is modelled as space or tab. -/
def isWhitespaceChar (c : Char) : Bool := c == ' ' || c == '\t'

/-- Modelled from the spec: per-character display width — a tab
expands to `tab_column_count` columns, any other character occupies
one column. -/
def charColumnCount (c : Char) (tabColumnCount : Nat) : Nat :=
  if c = '\t' then tabColumnCount else 1

/-- Modelled from the spec: display-column width of a string
(`column_count`). -/
def columnCount (s : List Char) (tabColumnCount : Nat) : Nat :=
  (s.map (fun c => charColumnCount c tabColumnCount)).sum

/-- Modelled from the spec: `leading_whitespace` — the line's leading
whitespace prefix. -/
def leadingWhitespace (s : List Char) : List Char := s.takeWhile isWhitespaceChar

/-- Modelled from the spec: `split_whitespace_boundaries` — split a
string into maximal runs of whitespace and of non-whitespace
characters (the spec's "whitespace-delimited segments"). -/
def splitWhitespaceBoundaries : List Char → List (List Char)
  | [] => []
  | c :: rest =>
    match splitWhitespaceBoundaries rest with
    | [] => [[c]]
    | seg :: segs =>
      match seg with
      | [] => [c] :: segs
      | d :: _ =>
        if isWhitespaceChar c = isWhitespaceChar d then (c :: seg) :: segs
        else [c] :: seg :: segs

/-- `wrap.rs`, pass 1, specialised to a line without inlays (its
`inline_elements()` are one text run): scan the segments and degrade
the indentation to 0, stopping, at the first segment that does not fit
next to it. -/
def wrapIndentationGo (maxColumnCount tabColumnCount : Nat) :
    Nat → List (List Char) → Nat
  | iw, [] => iw
  | iw, seg :: segs =>
    if iw + columnCount seg tabColumnCount > maxColumnCount then 0
    else wrapIndentationGo maxColumnCount tabColumnCount iw segs

/-- `wrap.rs`, pass 2, specialised to a line without inlays: greedy
wrap — whenever the next segment would exceed `max_column_count`,
record a break at the current byte offset and restart the running
width from the resolved indentation. -/
def wrapBreaksGo (indentationWidth maxColumnCount tabColumnCount : Nat) :
    Nat → Nat → List (List Char) → List Nat
  | _, _, [] => []
  | position, columnIndex, seg :: segs =>
    let cc := columnCount seg tabColumnCount
    if columnIndex + cc > maxColumnCount then
      position :: wrapBreaksGo indentationWidth maxColumnCount tabColumnCount
        (position + seg.length) (indentationWidth + cc) segs
    else
      wrapBreaksGo indentationWidth maxColumnCount tabColumnCount
        (position + seg.length) (columnIndex + cc) segs

/-- `wrap.rs`: `wrap(line, max_column_count, tab_column_count,
positions)` for a line without inlays: pass 1 resolves the
indentation, pass 2 collects the break byte offsets. -/
def wrapLine (text : List Char) (maxColumnCount tabColumnCount : Nat) :
    List Nat × Nat :=
  let iw := wrapIndentationGo maxColumnCount tabColumnCount
    (columnCount (leadingWhitespace text) tabColumnCount)
    (splitWhitespaceBoundaries text)
  (wrapBreaksGo iw maxColumnCount tabColumnCount 0 0
    (splitWhitespaceBoundaries text), iw)

/-- A byte offset lying on a whitespace-segment boundary of `text`:
the total length of some prefix of its segments. -/
def IsSegBoundary (text : List Char) (b : Nat) : Prop :=
  ∃ k, b = (((splitWhitespaceBoundaries text).take k).map List.length).sum

/-- Every break pass 2 records is the byte length of the segments
already consumed. -/
theorem wrapBreaksGo_boundary (indent maxC tabC : Nat) :
    ∀ (segs : List (List Char)) (pos col : Nat) (b : Nat),
    b ∈ wrapBreaksGo indent maxC tabC pos col segs →
    ∃ k, b = pos + (((segs.take k).map List.length).sum) := by
  intro segs
  induction segs with
  | nil =>
    intro pos col b hb
    simp [wrapBreaksGo] at hb
  | cons seg segs ih =>
    intro pos col b hb
    unfold wrapBreaksGo at hb
    by_cases hc : col + columnCount seg tabC > maxC
    · rw [if_pos hc] at hb
      rcases List.mem_cons.mp hb with rfl | hb
      · exact ⟨0, by simp⟩
      · obtain ⟨k, hk⟩ := ih _ _ _ hb
        refine ⟨k + 1, ?_⟩
        simp only [List.take_succ_cons, List.map_cons, List.sum_cons]
        omega
    · rw [if_neg hc] at hb
      obtain ⟨k, hk⟩ := ih _ _ _ hb
      refine ⟨k + 1, ?_⟩
      simp only [List.take_succ_cons, List.map_cons, List.sum_cons]
      omega

/-- C7: every break byte offset recorded by `wrap` lies on a
whitespace-segment boundary of the line's text — never strictly inside
a segment; in particular, for `"aaaa bbbb cccc"` with
`max_column_count = 9` and `tab_column_count = 4` the single break
lands at offset 9, inside none of the three words. -/
theorem wrap_breaks_on_segment_boundaries :
    (∀ (text : List Char) (maxC tabC : Nat), ∀ b ∈ (wrapLine text maxC tabC).1,
      IsSegBoundary text b) ∧
    (wrapLine ("aaaa bbbb cccc".toList) 9 4).1 = [9] ∧
    (∀ b ∈ (wrapLine ("aaaa bbbb cccc".toList) 9 4).1,
      ¬ (0 < b ∧ b < 4) ∧ ¬ (5 < b ∧ b < 9) ∧ ¬ (10 < b ∧ b < 14)) := by
  refine ⟨?_, by decide, by decide⟩
  intro text maxC tabC b hb
  unfold wrapLine at hb
  simp only at hb
  obtain ⟨k, hk⟩ := wrapBreaksGo_boundary _ maxC tabC _ 0 0 b hb
  exact ⟨k, by simpa using hk⟩

/-- Witness for C7: the recorded break at offset 9 of the example line
is a segment boundary. -/
theorem wrap_breaks_on_segment_boundaries_w :
    IsSegBoundary ("aaaa bbbb cccc".toList) 9 :=
  wrap_breaks_on_segment_boundaries.1 ("aaaa bbbb cccc".toList) 9 4 9 (by decide)

/-- C8 fails as stated: for the line `"  ab cdefghi"` with
`max_column_count = 8`, `tab_column_count = 4`, the leading whitespace
is 2 columns wide and the first segment — whether one reads that as
the leading whitespace itself (2 columns) or the first word `"ab"`
(2 columns) — fits within 8 columns next to it, yet the resolved
indentation is 0: the later segment `"cdefghi"` (7 columns) overflows,
and pass 1 degrades the indentation for *any* overflowing segment, not
just the first. -/
theorem wrap_indentation_not_first_segment_only :
    (wrapLine ("  ab cdefghi".toList) 8 4).2 = 0 ∧
    columnCount (leadingWhitespace ("  ab cdefghi".toList)) 4 = 2 ∧
    columnCount ((splitWhitespaceBoundaries ("  ab cdefghi".toList)).headD []) 4 = 2 ∧
    columnCount (((splitWhitespaceBoundaries ("  ab cdefghi".toList)).filter
      (fun seg => !seg.any isWhitespaceChar)).headD []) 4 = 2 ∧
    2 + 2 ≤ 8 ∧ (0 : Nat) ≠ 2 := by decide

/-- C8 (amended): for a line without inlays, the indentation width
returned by `wrap` degenerates to 0 exactly when the leading-whitespace
display width plus the display width of SOME whitespace-delimited
segment of the line exceeds `max_column_count` (equivalently, when the
widest segment no longer fits next to the indentation); otherwise it
equals the leading-whitespace display width. -/
theorem wrap_indentation_characterized (text : List Char) (maxC tabC : Nat) :
    (wrapLine text maxC tabC).2 =
      if (splitWhitespaceBoundaries text).any
          (fun seg => decide (columnCount (leadingWhitespace text) tabC +
            columnCount seg tabC > maxC)) then 0
      else columnCount (leadingWhitespace text) tabC := by
  have hgo : ∀ (segs : List (List Char)) (iw : Nat),
      wrapIndentationGo maxC tabC iw segs =
        if segs.any (fun seg => decide (iw + columnCount seg tabC > maxC)) then 0
        else iw := by
    intro segs
    induction segs with
    | nil =>
      intro iw
      simp [wrapIndentationGo]
    | cons seg segs ih =>
      intro iw
      unfold wrapIndentationGo
      by_cases hc : iw + columnCount seg tabC > maxC
      · rw [if_pos hc]
        simp [hc]
      · rw [if_neg hc]
        rw [ih iw]
        simp [hc]
  unfold wrapLine
  exact hgo _ _

end Makepad
